import Mathlib

/-!
Verification development for the Flutter auto-localizer scripts.

The Python sources are shallowly embedded over `List Char`:

* `flutter_localization_automation.py` — the line-based rewriter
  (`FlutterLocalizationAutomator.apply_localization_to_file`) and the
  skip-heuristic (`should_skip_string`);
* `apply_localization_suggestions.py` — the suggestion-driven applier
  (`LocalizationApplier`): ARB key loading, the confidence filter, the
  per-file rewrite, ARB key addition and the max-changes cap;
* `fix_localization_issues.py` — import fixing
  (`calculate_import_path`, `fix_missing_imports`).

Python strings are modelled as `List Char`; `str.replace`/`re.sub` with a
literal pattern as a leftmost, non-overlapping replace-all; `in` as the
infix (substring) relation; `dict` as an insertion-ordered association
list; `float` confidences as rationals.  File contents are kept whole;
text mutation is pure, and the dry-run/write decision is modelled
explicitly.  Regex character classes are modelled over ASCII.
-/

namespace AutoLoc

/-- Python strings are modelled as lists of characters. -/
abbrev L := List Char

/-- The single-quote character (written numerically to keep sources plain). -/
def sq : Char := Char.ofNat 39

/-- The double-quote character. -/
def dq : Char := Char.ofNat 34

/-- The newline character. -/
def nl : Char := Char.ofNat 10

/-- The backslash character. -/
def bs : Char := Char.ofNat 92

/-- The open-brace character. -/
def lbrace : Char := Char.ofNat 123

/-- The close-brace character. -/
def rbrace : Char := Char.ofNat 125

/-- Substring test: `occurs pat s` embeds Python `pat in s`. -/
def occurs : L → L → Bool
  | pat, [] => pat.isEmpty
  | pat, s@(_ :: cs) => pat.isPrefixOf s || occurs pat cs

/-- Fuel-driven core of Python `str.replace` / `re.sub` with a literal
pattern: replaces leftmost, non-overlapping occurrences of `pat` by `repl`
and counts the replacements.  Called with fuel `s.length`, which suffices
whenever `pat` is nonempty (all call sites use nonempty patterns). -/
def replCore (pat repl : L) : Nat → L → L × Nat
  | _, [] => ([], 0)
  | 0, s => (s, 0)
  | n + 1, c :: cs =>
    if pat.isPrefixOf (c :: cs) then
      let r := replCore pat repl n ((c :: cs).drop pat.length)
      (repl ++ r.1, r.2 + 1)
    else
      let r := replCore pat repl n cs
      (c :: r.1, r.2)

/-- Python `s.replace(pat, repl)` together with the number of replacements
(`re.sub` with a replacement function increments a counter per match). -/
def pyReplace (s pat repl : L) : L × Nat := replCore pat repl s.length s

/-- Python `content.split('\n')`. -/
def splitLines : L → List L
  | [] => [[]]
  | c :: cs =>
    if c = nl then [] :: splitLines cs
    else
      match splitLines cs with
      | [] => [[c]]
      | l :: ls => (c :: l) :: ls

/-- Python `'\n'.join(lines)`. -/
def joinLines : List L → L
  | [] => []
  | [l] => l
  | l :: ls => l ++ nl :: joinLines ls

/-- Python `list.insert(i, a)` (appends when the index is past the end). -/
def insertAt {α : Type} : Nat → α → List α → List α
  | 0, a, ls => a :: ls
  | _ + 1, a, [] => [a]
  | n + 1, a, l :: ls => l :: insertAt n a ls

/-- Python whitespace for `str.strip` and the regex class `\s`
(space, tab, newline, carriage return, vertical tab, form feed). -/
def pySpace (c : Char) : Bool :=
  c = ' ' || c = Char.ofNat 9 || c = nl || c = Char.ofNat 13 ||
    c = Char.ofNat 11 || c = Char.ofNat 12

/-- The ASCII regex class `[A-Z]`. -/
def chUpper (c : Char) : Bool := decide (65 ≤ c.toNat ∧ c.toNat ≤ 90)

/-- The ASCII regex class `[a-z]`. -/
def chLower (c : Char) : Bool := decide (97 ≤ c.toNat ∧ c.toNat ≤ 122)

/-- The ASCII regex class `[0-9]` (Python `\d`, ASCII model). -/
def chDigit (c : Char) : Bool := decide (48 ≤ c.toNat ∧ c.toNat ≤ 57)

/-- The ASCII regex class `[a-zA-Z]`. -/
def chAlpha (c : Char) : Bool := chUpper c || chLower c

/-- The ASCII regex class `[a-zA-Z0-9]`. -/
def chAlnum (c : Char) : Bool := chAlpha c || chDigit c

/-- Python `s.strip()`: remove leading and trailing whitespace. -/
def pyStrip (s : L) : L :=
  ((s.dropWhile pySpace).reverse.dropWhile pySpace).reverse

/-- Python `str.isupper()` (ASCII model): there is at least one cased
character and no cased character is lowercase. -/
def pyIsUpper (s : L) : Bool :=
  s.any chAlpha && s.all (fun c => !(chLower c))

/-!
### `flutter_localization_automation.py` — the line-based rewriter

`apply_localization_to_file` (lines 190–246): for each `(english_text, key)`
of the English-to-key mapping and each quote style, if the quoted pattern
occurs in the content, rewrite it line by line, skipping lines that
already contain `AppLocalizations.of(context)`.
-/

/-- The marker string `AppLocalizations.of(context)` used both in the
replacement and in the already-localized check. -/
def appLocMarker : L := "AppLocalizations.of(context)".toList

/-- The quoted literal pattern `{q}{text}{q}` (regex-escaped in the source,
used with a fixed replacement function, hence equivalent to a literal). -/
def quotePat (q : Char) (text : L) : L := q :: (text ++ [q])

/-- The automator's replacement
`AppLocalizations.of(context)?.{key} ?? {q}{text}{q}` — the fallback keeps
the quote style of the matched literal. -/
def lookupRepl (key : L) (q : Char) (text : L) : L :=
  appLocMarker ++ ("?.".toList ++ (key ++ (" ?? ".toList ++ quotePat q text)))

/-- A line is rewritten when the pattern occurs in it and it does not
already contain the lookup marker
(`re.search(pattern, line) and 'AppLocalizations.of(context)' not in line`). -/
def lineFires (pat : L) (line : L) : Bool :=
  occurs pat line && !(occurs appLocMarker line)

/-- Per-line rewriting step with its change count. -/
def lineRepl (pat repl line : L) : L × Nat :=
  if lineFires pat line then pyReplace line pat repl else (line, 0)

/-- One pattern pass of the automator: gate on a whole-content match, then
split into lines, rewrite each line, and re-join. -/
def applyPatternAuto (pat repl content : L) : L × Nat :=
  if occurs pat content then
    let rs := (splitLines content).map (lineRepl pat repl)
    (joinLines (rs.map Prod.fst), (rs.map Prod.snd).sum)
  else (content, 0)

/-- One English-text entry: the single-quote pattern pass, then the
double-quote pattern pass. -/
def applyEntryAuto (content : L) (text key : L) : L × Nat :=
  let r1 := applyPatternAuto (quotePat sq text) (lookupRepl key sq text) content
  let r2 := applyPatternAuto (quotePat dq text) (lookupRepl key dq text) r1.1
  (r2.1, r1.2 + r2.2)

/-- The pure rewrite of `apply_localization_to_file`: fold all
`(english_text, key)` entries over the content, accumulating changes. -/
def automatorRewrite (mapping : List (L × L)) (content : L) : L × Nat :=
  mapping.foldl (fun acc e =>
    let r := applyEntryAuto acc.1 e.1 e.2
    (r.1, acc.2 + r.2)) (content, 0)

/-- `apply_localization_to_file` including the write-back decision: the
result is `(on-disk content after the call, returned change count)`.
The file is written only when changes were made and `dry_run` is false. -/
def automatorApplyToFile (mapping : List (L × L)) (content : L)
    (dryRun : Bool) : L × Nat :=
  let r := automatorRewrite mapping content
  if r.2 > 0 && !dryRun then (r.1, r.2) else (content, r.2)

/-- Line-level rewriting step of one `(pattern, replacement)` pair
(proof view of the automator pipeline). -/
def stepP (p : L × L) (l : L) : L := (lineRepl p.1 p.2 l).1

/-- Sequential line-level rewriting by a list of pattern pairs. -/
def chainP (ps : List (L × L)) (l : L) : L := ps.foldl (fun l p => stepP p l) l

/-- The two pattern pairs an entry contributes (single then double quote). -/
def pairsOf (text key : L) : List (L × L) :=
  [(quotePat sq text, lookupRepl key sq text),
   (quotePat dq text, lookupRepl key dq text)]

/-- All pattern pairs of a mapping, in application order. -/
def patsOf : List (L × L) → List (L × L)
  | [] => []
  | e :: m => pairsOf e.1 e.2 ++ patsOf m

/-- Content-level folding of pattern passes (proof view). -/
def foldApply (ps : List (L × L)) (content : L) : L :=
  ps.foldl (fun c p => (applyPatternAuto p.1 p.2 c).1) content

/-!
### `flutter_localization_automation.py` — `should_skip_string`
(lines 122–143), with its regex list embedded as executable decisions, and
the same predicates in specification form.
-/

/-- The regex class `[a-zA-Z0-9._%+-]` (email local part). -/
def emailLocalChar (c : Char) : Bool :=
  chAlnum c || c = '.' || c = '_' || c = '%' || c = '+' || c = '-'

/-- The regex class `[a-zA-Z0-9.-]` (email domain part). -/
def emailDomChar (c : Char) : Bool := chAlnum c || c = '.' || c = '-'

/-- Regex `^https?://` under `re.match`: a URL prefix. -/
def matchUrl (t : L) : Bool :=
  ("http://".toList).isPrefixOf t || ("https://".toList).isPrefixOf t

/-- Regex `^\d+$`: a bare integer. -/
def matchNum (t : L) : Bool := !t.isEmpty && t.all chDigit

/-- Regex `^[\d\s\-\+\(\)]+$`: a phone-number-shaped string. -/
def matchPhone (t : L) : Bool :=
  !t.isEmpty &&
    t.all (fun c => chDigit c || pySpace c || c = '-' || c = '+' || c = '(' || c = ')')

/-- The part of the email regex after the `@`: `[a-zA-Z0-9.-]+\.[a-zA-Z]\x7b2,\x7d$`.
Since the top-level domain may not contain a dot, the regex dot is the
last dot of the string. -/
def emailDomOk (dom : L) : Bool :=
  match dom.reverse.dropWhile (fun c => !(c = '.')) with
  | [] => false
  | _ :: domR =>
    !(domR.reverse).isEmpty && (domR.reverse).all emailDomChar &&
      decide (2 ≤ ((dom.reverse.takeWhile (fun c => !(c = '.'))).reverse).length) &&
      ((dom.reverse.takeWhile (fun c => !(c = '.'))).reverse).all chAlpha

/-- Regex `^[a-zA-Z0-9._%+-]+@[a-zA-Z0-9.-]+\.[a-zA-Z]\x7b2,\x7d$`: an email
address.  No character class contains `@`, so the regex `@` is the first
`@` of the string. -/
def matchEmail (t : L) : Bool :=
  let loc := t.takeWhile (fun c => !(c = '@'))
  match t.dropWhile (fun c => !(c = '@')) with
  | [] => false
  | _ :: dom => !loc.isEmpty && loc.all emailLocalChar && emailDomOk dom

/-- Regex `^\$\x7b.*\x7d$`: template-variable-only content (`.` does not
match a newline; the input is stripped, so `$` is end-of-string). -/
def matchTemplate (t : L) : Bool :=
  (['$', lbrace].isPrefixOf t) && decide (3 ≤ t.length) &&
    decide (t.getLast? = some rbrace) &&
    ((t.drop 2).dropLast.all (fun c => !(c = nl)))

/-- Regex `^[A-Z_][A-Z0-9_]*$`: an ALL-CAPS single-token constant. -/
def matchConst : L → Bool
  | [] => false
  | c :: cs => (chUpper c || c = '_') && cs.all (fun d => chUpper d || chDigit d || d = '_')

/-- Regex `^[a-z][a-zA-Z0-9]*$`: a bare single lower-camel-case identifier. -/
def matchCamel : L → Bool
  | [] => false
  | c :: cs => chLower c && cs.all chAlnum

/-- `should_skip_string` (lines 122–143): skip when the stripped text is
shorter than 2 characters or matches one of the seven skip regexes. -/
def should_skip_string (text : L) : Bool :=
  let t := pyStrip text
  if t.length < 2 then true
  else matchUrl t || matchNum t || matchPhone t || matchEmail t ||
       matchTemplate t || matchConst t || matchCamel t

/-- Spec form: URL prefix. -/
def urlSpec (t : L) : Prop := "http://".toList <+: t ∨ "https://".toList <+: t

/-- Spec form: bare integer. -/
def intSpec (t : L) : Prop := t ≠ [] ∧ ∀ c ∈ t, chDigit c = true

/-- Spec form: phone-number-shaped digit/punctuation string. -/
def phoneSpec (t : L) : Prop :=
  t ≠ [] ∧ ∀ c ∈ t,
    chDigit c = true ∨ pySpace c = true ∨ c = '-' ∨ c = '+' ∨ c = '(' ∨ c = ')'

/-- Spec form: email address, as an explicit decomposition
`local @ domain . tld`. -/
def emailSpec (t : L) : Prop :=
  ∃ loc dom tld, t = loc ++ '@' :: (dom ++ '.' :: tld) ∧ loc ≠ [] ∧
    (∀ c ∈ loc, emailLocalChar c = true) ∧ dom ≠ [] ∧
    (∀ c ∈ dom, emailDomChar c = true) ∧ 2 ≤ tld.length ∧
    ∀ c ∈ tld, chAlpha c = true

/-- Spec form: template-variable-only content. -/
def tmplSpec (t : L) : Prop :=
  ∃ mid, t = '$' :: lbrace :: (mid ++ [rbrace]) ∧ ∀ c ∈ mid, c ≠ nl

/-- Spec form: ALL-CAPS single-token constant. -/
def constSpec (t : L) : Prop :=
  ∃ c cs, t = c :: cs ∧ (chUpper c = true ∨ c = '_') ∧
    ∀ d ∈ cs, chUpper d = true ∨ chDigit d = true ∨ d = '_'

/-- Spec form: bare single lower-camel-case identifier. -/
def camelSpec (t : L) : Prop :=
  ∃ c cs, t = c :: cs ∧ chLower c = true ∧ ∀ d ∈ cs, chAlnum d = true

/-- The skip-heuristic as the claim states it: trimmed length below 2, or
one of the seven skip shapes on the trimmed string. -/
def skipSpec (text : L) : Prop :=
  (pyStrip text).length < 2 ∨ urlSpec (pyStrip text) ∨ intSpec (pyStrip text) ∨
    phoneSpec (pyStrip text) ∨ emailSpec (pyStrip text) ∨
    tmplSpec (pyStrip text) ∨ constSpec (pyStrip text) ∨ camelSpec (pyStrip text)

/-!
### `apply_localization_suggestions.py` — suggestions and the filter
(`filter_high_confidence_suggestions`, lines 99–131)
-/

/-- One suggestion entry (`key → data` of `strings_to_localize.json`),
with the fields the applier reads (`data.get(...)` defaults folded in). -/
structure Suggestion where
  key : L
  value : L
  description : L
  widget_type : L
  confidence : ℚ
deriving DecidableEq

/-- The template marker `$\x7b` (first half of the redundant check). -/
def dollarBraceTok : L := "$\x7b".toList

/-- The template marker `$`. -/
def dollarTok : L := "$".toList

/-- The widget type `button`. -/
def buttonTok : L := "button".toList

/-- The widget type `label`. -/
def labelTok : L := "label".toList

/-- The filter's keep-condition: the conjunction of the negations of the
five `continue` conditions of lines 109–126. -/
def keepSuggestion (existingEn : List L) (minConf : ℚ) (s : Suggestion) : Bool :=
  !(s.confidence < minConf) &&
  !(occurs dollarBraceTok s.value || occurs dollarTok s.value) &&
  !(decide ((pyStrip s.value).length < 3) &&
      !(s.widget_type = buttonTok || s.widget_type = labelTok)) &&
  !(pyIsUpper s.value && !(decide (' ' ∈ s.value))) &&
  !(decide (s.key ∈ existingEn))

/-- `filter_high_confidence_suggestions`: keep exactly the suggestions
passing all five rules, in input order. -/
def filter_high_confidence_suggestions (existingEn : List L) (minConf : ℚ)
    (suggs : List Suggestion) : List Suggestion :=
  suggs.filter (keepSuggestion existingEn minConf)

/-- The five filter rules as the claim words them. -/
def specKeep (existingEn : List L) (minConf : ℚ) (s : Suggestion) : Prop :=
  minConf ≤ s.confidence ∧
  '$' ∉ s.value ∧
  (3 ≤ (pyStrip s.value).length ∨ s.widget_type = buttonTok ∨ s.widget_type = labelTok) ∧
  ¬((∃ c ∈ s.value, chAlpha c = true) ∧
      (∀ c ∈ s.value, chAlpha c = true → chUpper c = true) ∧ ' ' ∉ s.value) ∧
  s.key ∉ existingEn

/-- The max-changes cap of `apply_suggestions` (lines 272–274):
`dict(list(filtered.items())[:max_changes])` when over the cap. -/
def limitSuggestions {α : Type} (suggs : List α) (maxChanges : Nat) : List α :=
  if maxChanges < suggs.length then suggs.take maxChanges else suggs

/-!
### `apply_localization_suggestions.py` — the per-file rewrite
(`apply_localization_to_file`, lines 133–200)

Patterns are built with `re.escape` but then used with plain `in` /
`str.replace`, so the escaping is part of the literal text being
searched for.
-/

/-- The characters Python 3.8 `re.escape` prefixes with a backslash. -/
def reSpecial (c : Char) : Bool :=
  c = '(' || c = ')' || c = '[' || c = ']' || c = lbrace || c = rbrace ||
  c = '?' || c = '*' || c = '+' || c = '-' || c = '|' || c = '^' || c = '$' ||
  c = bs || c = '.' || c = '&' || c = '~' || c = '#' || c = ' ' ||
  c = Char.ofNat 9 || c = nl || c = Char.ofNat 13 || c = Char.ofNat 11 ||
  c = Char.ofNat 12

/-- Python `re.escape` (3.8 semantics: prefix each special character with
a backslash). -/
def reEscape : L → L
  | [] => []
  | c :: cs => (if reSpecial c then [bs, c] else [c]) ++ reEscape cs

/-- The literal `const Text(`. -/
def constTextPre : L := "const Text(".toList

/-- The literal `Text(`. -/
def textPre : L := "Text(".toList

/-- The applier's six patterns for a value, in order (lines 164–171). -/
def suggPatterns (v : L) : List L :=
  [reEscape (quotePat sq v), reEscape (quotePat dq v),
   reEscape (constTextPre ++ quotePat sq v), reEscape (constTextPre ++ quotePat dq v),
   reEscape (textPre ++ quotePat sq v), reEscape (textPre ++ quotePat dq v)]

/-- The applier's replacement,
`AppLocalizations.of(context)?.{key} ?? '{value}'` — the fallback is
always single-quoted (line 173). -/
def suggReplacement (key v : L) : L :=
  appLocMarker ++ ("?.".toList ++ (key ++ (" ?? ".toList ++ quotePat sq v)))

/-- The `for pattern in patterns: if pattern in content:` scan (stops at
the first pattern that occurs, mirroring the `break`). -/
def findFirstPat (content : L) : List L → Option L
  | [] => none
  | p :: ps => if occurs p content then some p else findFirstPat content ps

/-- One suggestion applied to the content (lines 158–186): find the first
occurring pattern; if it contains `const Text(`, rebuild the replacement
from the de-`const`ed pattern, else substitute directly.  Returns the new
content and whether a change was counted. -/
def applySuggOne (content key v : L) : L × Bool :=
  match findFirstPat content (suggPatterns v) with
  | none => (content, false)
  | some pat =>
    if occurs constTextPre pat then
      let np := (pyReplace pat constTextPre textPre).1
      let np2 := (pyReplace np (quotePat sq v) (suggReplacement key v)).1
      let np3 := (pyReplace np2 (quotePat dq v) (suggReplacement key v)).1
      ((pyReplace content pat np3).1, true)
    else ((pyReplace content pat (suggReplacement key v)).1, true)

/-- The per-file rewrite over a list of `(key, value)` suggestions, with
the `changes_made` count. -/
def applySuggFile (content : L) (suggs : List (L × L)) : L × Nat :=
  suggs.foldl (fun acc e =>
    let r := applySuggOne acc.1 e.1 e.2
    (r.1, acc.2 + (if r.2 then 1 else 0))) (content, 0)

/-!
### `apply_localization_suggestions.py` — ARB catalog handling
(`load_existing_arb_keys` lines 44–64, `add_keys_to_arb_file`
lines 216–253)
-/

/-- One ARB document value: translation text or a metadata object. -/
inductive ArbVal where
  | text (s : L)
  | meta (description : L)
deriving DecidableEq

/-- An ARB document: a key-ordered association list (Python `dict`). -/
abbrev ArbDoc := List (L × ArbVal)

/-- Python `key in arb_data`. -/
def hasKey (doc : ArbDoc) (k : L) : Bool := doc.any (fun e => decide (e.1 = k))

/-- The reserved locale-marker key. -/
def localeMarkerKey : L := "@@locale".toList

/-- Line 220–224: the starting document — the existing file when present,
else a fresh document holding only the locale marker. -/
def arbBase (fileDoc : Option ArbDoc) (locale : L) : ArbDoc :=
  fileDoc.getD [(localeMarkerKey, ArbVal.text locale)]

/-- The `ru` locale name. -/
def ruLocale : L := "ru".toList

/-- The Russian placeholder tag. -/
def ruTag : L := "[RU] ".toList

/-- The metadata description tag. -/
def metaTag : L := "Auto-generated from ".toList

/-- The loop body of `add_keys_to_arb_file` lines 228–243: add the
suggestion key when absent from the document, tagging the Russian value
with a placeholder marker, along with an `@key` metadata entry, and count
the addition (`keys_added`). -/
def addKeysStep (locale : L) (acc : ArbDoc × Nat) (s : Suggestion) : ArbDoc × Nat :=
  if hasKey acc.1 s.key then acc
  else
    (acc.1 ++ [(s.key, ArbVal.text
        (if locale = ruLocale then ruTag ++ s.value else s.value)),
      ('@' :: s.key, ArbVal.meta (metaTag ++ s.description))], acc.2 + 1)

/-- The whole suggestion loop of `add_keys_to_arb_file`: the updated
document together with `keys_added`. -/
def addKeysDoc (doc : ArbDoc) (suggs : List Suggestion) (locale : L) : ArbDoc × Nat :=
  suggs.foldl (addKeysStep locale) (doc, 0)

/-- The key enumeration of `load_existing_arb_keys` lines 54–57: keys not
starting with `@@` nor `@`. -/
def arbEntryKeys (doc : ArbDoc) : List L :=
  (doc.map Prod.fst).filter (fun k =>
    !(("@@".toList).isPrefixOf k) && !(['@'].isPrefixOf k))

/-- The observable state of an ARB file on disk. -/
inductive ArbFileState where
  | absent
  | malformed
  | wellFormed (doc : ArbDoc)
deriving DecidableEq

/-- `add_keys_to_arb_file` (lines 216–253) as a transformer of the
on-disk file state.  An absent file starts from the locale-marker base
document; a malformed file makes `json.load` raise inside the `try`, the
`except Exception` handler logs and returns — nothing is added and
nothing is written; the document is written back only when
`keys_added > 0`. -/
def add_keys_to_arb_file : ArbFileState → List Suggestion → L → ArbFileState
  | ArbFileState.malformed, _, _ => ArbFileState.malformed
  | ArbFileState.absent, suggs, locale =>
    if (addKeysDoc (arbBase none locale) suggs locale).2 > 0 then
      ArbFileState.wellFormed (addKeysDoc (arbBase none locale) suggs locale).1
    else ArbFileState.absent
  | ArbFileState.wellFormed d, suggs, locale =>
    if (addKeysDoc (arbBase (some d) locale) suggs locale).2 > 0 then
      ArbFileState.wellFormed (addKeysDoc (arbBase (some d) locale) suggs locale).1
    else ArbFileState.wellFormed d

/-- Whether the on-disk catalog contains a key (an absent or malformed
file contains none). -/
def stateHasKey : ArbFileState → L → Bool
  | ArbFileState.wellFormed d, k => hasKey d k
  | _, _ => false

/-- Outcome of loading the catalog key set.  `catalogError` is the abort
outcome the specification calls `CatalogReadError`. -/
inductive LoadOutcome where
  | ok (keys : List L)
  | catalogError
deriving DecidableEq

/-- `load_existing_arb_keys` (lines 44–64): an absent file returns the
empty set before reading; a malformed document raises inside the `try`,
is caught by `except Exception`, and the function returns the empty set
— it never aborts. -/
def load_existing_arb_keys : ArbFileState → LoadOutcome
  | ArbFileState.absent => LoadOutcome.ok []
  | ArbFileState.malformed => LoadOutcome.ok []
  | ArbFileState.wellFormed doc => LoadOutcome.ok (arbEntryKeys doc)

/-!
### `fix_localization_issues.py` — import fixing
(`calculate_import_path` lines 60–73, `fix_missing_imports` lines 75–126)
-/

/-- The keyword prefix checked by `line.strip().startswith('import ')`. -/
def importKw : L := "import ".toList

/-- The import path suffix `l10n/app_localizations.dart`. -/
def l10nSuffix : L := "l10n/app_localizations.dart".toList

/-- `'../' * n`. -/
def dots : Nat → L
  | 0 => []
  | n + 1 => "../".toList ++ dots n

/-- The checked already-imported variant with `n` parent steps
(the source checks `n = 1, 2, 3, 4`). -/
def importVariant (n : Nat) : L :=
  importKw ++ [sq] ++ dots n ++ l10nSuffix ++ [sq]

/-- Lines 89–92: the four hard-coded already-imported checks. -/
def hasImportVariant (content : L) : Bool :=
  occurs (importVariant 1) content || occurs (importVariant 2) content ||
  occurs (importVariant 3) content || occurs (importVariant 4) content

/-- Python `s.find(pat)` (None for `-1`). -/
def firstOccIdx (pat : L) : L → Option Nat
  | [] => if pat.isEmpty then some 0 else none
  | s@(_ :: cs) =>
    if pat.isPrefixOf s then some 0 else (firstOccIdx pat cs).map (· + 1)

/-- `calculate_import_path`: find `lib/` in the backslash-normalized path,
count the directory separators after it, and build `'../' * depth`
followed by the l10n suffix. -/
def calculate_import_path (path : L) : L :=
  let norm := path.map (fun c => if c = bs then '/' else c)
  match firstOccIdx ("lib/".toList) norm with
  | none => dots 1 ++ l10nSuffix
  | some i => dots ((path.drop (i + 4)).count '/') ++ l10nSuffix

/-- `line.strip().startswith('import ')`. -/
def isImportLine (l : L) : Bool := importKw.isPrefixOf (pyStrip l)

/-- A line skipped when looking for the first code line: blank or a
`//` comment. -/
def isSkippableTop (l : L) : Bool :=
  (pyStrip l).isEmpty || (("//".toList).isPrefixOf (pyStrip l))

/-- The loop of lines 99–101: the index of the last import line. -/
def lastImportIdxAux : Nat → Option Nat → List L → Option Nat
  | _, acc, [] => acc
  | i, acc, l :: ls =>
    lastImportIdxAux (i + 1) (if isImportLine l then some i else acc) ls

/-- The loop of lines 106–109: the index of the first non-blank,
non-comment line. -/
def firstCodeIdxAux : Nat → List L → Option Nat
  | _, [] => none
  | i, l :: ls => if isSkippableTop l then firstCodeIdxAux (i + 1) ls else some i

/-- `f"import '{import_path}';"`. -/
def importStatement (path : L) : L :=
  importKw ++ [sq] ++ calculate_import_path path ++ [sq] ++ [';']

/-- `fix_missing_imports`: skip files that do not use the marker or
already import a known variant; otherwise insert the import statement at
index `i + 1`, where `i` is the last import line's index, or else the
first non-comment line's index (0 when every line is blank/comment). -/
def fix_missing_imports (path content : L) : L × Nat :=
  if !(occurs appLocMarker content) then (content, 0)
  else if hasImportVariant content then (content, 0)
  else
    let lines := splitLines content
    let idx := match lastImportIdxAux 0 none lines with
      | some i => i
      | none => (firstCodeIdxAux 0 lines).getD 0
    (joinLines (insertAt (idx + 1) (importStatement path) lines), 1)

/-!
## Theorems

First the library of facts about the string model, then the claim
theorems.
-/

theorem occurs_iff_isInfix (pat s : L) : occurs pat s = true ↔ pat <:+: s := by
  induction s with
  | nil =>
    constructor
    · intro h
      have : pat = [] := by simpa [occurs, List.isEmpty_iff] using h
      simp [this]
    · intro h
      have : pat = [] := List.eq_nil_of_infix_nil h
      simp [occurs, this, List.isEmpty_iff]
  | cons c cs ih =>
    simp only [occurs, Bool.or_eq_true, List.isPrefixOf_iff_prefix, ih,
      List.infix_cons_iff]

theorem occurs_of_infix_occurs {p q s : L} (hpq : p <:+: q)
    (h : occurs q s = true) : occurs p s = true := by
  rw [occurs_iff_isInfix] at h ⊢
  exact hpq.trans h

theorem mem_of_occurs {c : Char} {p s : L} (hc : c ∈ p)
    (h : occurs p s = true) : c ∈ s := by
  rw [occurs_iff_isInfix] at h
  exact h.sublist.mem hc

theorem occurs_mid (l₁ p l₂ : L) : occurs p (l₁ ++ p ++ l₂) = true := by
  rw [occurs_iff_isInfix]; exact List.infix_append l₁ p l₂

theorem not_occurs_of_not_occurs_cons {p : L} {c : Char} {cs : L}
    (h : occurs p (c :: cs) = false) : occurs p cs = false := by
  cases hcs : occurs p cs with
  | false => rfl
  | true =>
    exfalso
    rw [occurs_iff_isInfix] at hcs
    have : occurs p (c :: cs) = true := by
      rw [occurs_iff_isInfix, List.infix_cons_iff]; exact Or.inr hcs
    rw [h] at this; exact Bool.false_ne_true this

theorem replCore_fuel_irrel (pat repl : L) (hp : pat ≠ []) :
    ∀ n m s, s.length ≤ n → s.length ≤ m →
      replCore pat repl n s = replCore pat repl m s := by
  intro n
  induction n with
  | zero =>
    intro m s hn _
    have : s = [] := List.eq_nil_of_length_eq_zero (Nat.le_zero.mp hn)
    subst this
    cases m <;> rfl
  | succ n ih =>
    intro m s hn hm
    cases s with
    | nil => cases m <;> rfl
    | cons c cs =>
      cases m with
      | zero => simp at hm
      | succ m =>
        simp only [replCore]
        cases hpre : pat.isPrefixOf (c :: cs) with
        | true =>
          simp only [if_true]
          have hlen : pat.length ≤ (c :: cs).length :=
            (List.isPrefixOf_iff_prefix.mp hpre).length_le
          have hpos : 1 ≤ pat.length :=
            Nat.one_le_iff_ne_zero.mpr (fun h => hp (List.eq_nil_of_length_eq_zero h))
          have hdl : ((c :: cs).drop pat.length).length ≤ n := by
            rw [List.length_drop]
            simp only [List.length_cons] at hn ⊢
            omega
          have hdm : ((c :: cs).drop pat.length).length ≤ m := by
            rw [List.length_drop]
            simp only [List.length_cons] at hm ⊢
            omega
          rw [ih _ _ hdl hdm]
        | false =>
          simp only [Bool.false_eq_true, if_false]
          have hl : cs.length ≤ n := by simp at hn; omega
          have hm' : cs.length ≤ m := by simp at hm; omega
          rw [ih _ _ hl hm']

theorem pyReplace_nil (pat repl : L) : pyReplace [] pat repl = ([], 0) := rfl

theorem pyReplace_pos {s pat : L} (repl : L) (hp : pat ≠ [])
    (hpre : pat <+: s) (hs : s ≠ []) :
    pyReplace s pat repl =
      (repl ++ (pyReplace (s.drop pat.length) pat repl).1,
       (pyReplace (s.drop pat.length) pat repl).2 + 1) := by
  obtain ⟨c, cs, rfl⟩ := List.exists_cons_of_ne_nil hs
  have hpre' : pat.isPrefixOf (c :: cs) := List.isPrefixOf_iff_prefix.mpr hpre
  show replCore pat repl (c :: cs).length (c :: cs) = _
  simp only [List.length_cons, replCore, hpre', if_true]
  have hlen : pat.length ≤ (c :: cs).length := hpre.length_le
  have hpos : 1 ≤ pat.length :=
    Nat.one_le_iff_ne_zero.mpr (fun h => hp (List.eq_nil_of_length_eq_zero h))
  have : replCore pat repl cs.length ((c :: cs).drop pat.length) =
      pyReplace ((c :: cs).drop pat.length) pat repl := by
    apply replCore_fuel_irrel pat repl hp
    · rw [List.length_drop]; simp only [List.length_cons]; omega
    · rw [List.length_drop]
  rw [this]

theorem pyReplace_neg {c : Char} {cs pat : L} (repl : L)
    (hpre : ¬ pat <+: (c :: cs)) :
    pyReplace (c :: cs) pat repl =
      (c :: (pyReplace cs pat repl).1, (pyReplace cs pat repl).2) := by
  have hpre' : pat.isPrefixOf (c :: cs) = false := by
    rw [Bool.eq_false_iff]
    intro h; exact hpre (List.isPrefixOf_iff_prefix.mp h)
  show replCore pat repl (c :: cs).length (c :: cs) = _
  simp only [List.length_cons, replCore, hpre', Bool.false_eq_true, if_false]
  rfl

theorem replCore_fst_of_not_occurs {pat s : L} (repl : L) (n : Nat)
    (h : occurs pat s = false) : (replCore pat repl n s).1 = s := by
  induction n generalizing s with
  | zero => cases s <;> rfl
  | succ n ih =>
    cases s with
    | nil => rfl
    | cons c cs =>
      simp only [occurs, Bool.or_eq_false_iff] at h
      simp only [replCore, h.1, Bool.false_eq_true, if_false]
      rw [ih h.2]

theorem pyReplace_fst_of_not_occurs {pat s : L} (repl : L)
    (h : occurs pat s = false) : (pyReplace s pat repl).1 = s :=
  replCore_fst_of_not_occurs repl s.length h

theorem mem_replCore_fst {pat repl : L} {n : Nat} {s : L} {c : Char}
    (h : c ∈ (replCore pat repl n s).1) : c ∈ s ∨ c ∈ repl := by
  induction n generalizing s with
  | zero =>
    cases s with
    | nil => simp [replCore] at h
    | cons a as => exact Or.inl h
  | succ n ih =>
    cases s with
    | nil => simp [replCore] at h
    | cons a as =>
      simp only [replCore] at h
      by_cases hpre : pat.isPrefixOf (a :: as)
      · simp only [hpre, if_true, List.mem_append] at h
        rcases h with h | h
        · exact Or.inr h
        · rcases ih h with h' | h'
          · exact Or.inl (List.mem_of_mem_drop h')
          · exact Or.inr h'
      · simp only [hpre, Bool.false_eq_true, if_false, List.mem_cons] at h
        rcases h with rfl | h
        · exact Or.inl (List.mem_cons_self _ _)
        · rcases ih h with h' | h'
          · exact Or.inl (List.mem_cons_of_mem _ h')
          · exact Or.inr h'

theorem repl_infix_replCore {pat repl : L} (hp : pat ≠ []) :
    ∀ {n : Nat} {s : L}, s.length ≤ n → occurs pat s = true →
      repl <:+: (replCore pat repl n s).1 := by
  intro n
  induction n with
  | zero =>
    intro s hn h
    have : s = [] := List.eq_nil_of_length_eq_zero (Nat.le_zero.mp hn)
    subst this
    simp [occurs, List.isEmpty_iff, hp] at h
  | succ n ih =>
    intro s hn h
    cases s with
    | nil => simp [occurs, List.isEmpty_iff, hp] at h
    | cons c cs =>
      simp only [replCore]
      by_cases hpre : pat.isPrefixOf (c :: cs)
      · simp only [hpre, if_true]
        exact (List.prefix_append repl _).isInfix
      · simp only [hpre, Bool.false_eq_true, if_false]
        simp only [occurs, hpre, Bool.false_or] at h
        have hl : cs.length ≤ n := by simp at hn; omega
        exact (ih hl h).trans (List.infix_cons (List.infix_refl _))

theorem repl_infix_pyReplace {pat repl s : L} (hp : pat ≠ [])
    (h : occurs pat s = true) : repl <:+: (pyReplace s pat repl).1 :=
  repl_infix_replCore hp (Nat.le_refl _) h

theorem pyReplace_fst_split {pat : L} (repl : L) (hp : pat ≠ []) :
    ∀ (l₁ l₂ : L), occurs pat ((l₁ ++ pat).dropLast) = false →
      (pyReplace (l₁ ++ pat ++ l₂) pat repl).1 =
        l₁ ++ repl ++ (pyReplace l₂ pat repl).1 := by
  intro l₁
  induction l₁ with
  | nil =>
    intro l₂ _
    have hs : pat ++ l₂ ≠ [] := by
      intro h
      exact hp (List.append_eq_nil.mp h).1
    rw [List.nil_append, pyReplace_pos repl hp (List.prefix_append pat l₂) hs]
    simp [List.drop_left]
  | cons a l₁ ih =>
    intro l₂ hno
    have hnpre : ¬ pat <+: (a :: l₁ ++ pat ++ l₂) := by
      intro hpre
      -- an occurrence at position 0 would lie inside `dropLast ((a :: l₁) ++ pat)`
      have hpre2 : pat <+: (a :: l₁ ++ pat) := by
        refine List.prefix_of_prefix_length_le hpre ?_ ?_
        · exact List.prefix_append _ _
        · simp only [List.length_append, List.length_cons]
          omega
      obtain ⟨t, ht⟩ := hpre2
      have htne : t ≠ [] := by
        intro h
        subst h
        rw [List.append_nil] at ht
        have := congrArg List.length ht
        simp only [List.length_append, List.length_cons] at this
        omega
      have hpre3 : pat <+: (a :: l₁ ++ pat).dropLast := by
        rw [← ht, List.dropLast_append_of_ne_nil _ htne]
        exact List.prefix_append _ _
      have : occurs pat ((a :: l₁ ++ pat).dropLast) = true := by
        rw [occurs_iff_isInfix]; exact hpre3.isInfix
      rw [hno] at this
      exact Bool.false_ne_true this
    have hno' : occurs pat ((l₁ ++ pat).dropLast) = false := by
      have hcons : (a :: l₁ ++ pat).dropLast = a :: (l₁ ++ pat).dropLast := by
        have : l₁ ++ pat ≠ [] := by
          intro h; exact hp (List.append_eq_nil.mp h).2
        rw [List.cons_append]
        exact List.dropLast_cons_of_ne_nil this
      rw [hcons] at hno
      exact not_occurs_of_not_occurs_cons hno
    have hsplit : (a :: l₁) ++ pat ++ l₂ = a :: (l₁ ++ pat ++ l₂) := by simp
    rw [hsplit, pyReplace_neg repl (by rw [← hsplit]; exact hnpre), ih l₂ hno']
    simp

theorem splitLines_ne_nil (s : L) : splitLines s ≠ [] := by
  cases s with
  | nil => simp [splitLines]
  | cons c cs =>
    simp only [splitLines]
    by_cases h : c = nl
    · simp [h]
    · simp only [h, if_false]
      cases splitLines cs <;> simp

theorem joinLines_cons (l : L) (ls : List L) (h : ls ≠ []) :
    joinLines (l :: ls) = l ++ nl :: joinLines ls := by
  cases ls with
  | nil => exact absurd rfl h
  | cons l' ls' => rfl

theorem joinLines_splitLines (s : L) : joinLines (splitLines s) = s := by
  induction s with
  | nil => rfl
  | cons c cs ih =>
    simp only [splitLines]
    by_cases h : c = nl
    · subst h
      rw [if_pos rfl, joinLines_cons _ _ (splitLines_ne_nil cs), ih]
      rfl
    · rw [if_neg h]
      cases hcs : splitLines cs with
      | nil => exact absurd hcs (splitLines_ne_nil cs)
      | cons l ls =>
        cases ls with
        | nil =>
          simp only [joinLines]
          rw [hcs] at ih
          simp only [joinLines] at ih
          rw [← ih]
        | cons l' ls' =>
          rw [joinLines_cons _ _ (by simp)]
          rw [hcs] at ih
          rw [joinLines_cons _ _ (by simp)] at ih
          rw [List.cons_append, ih]

theorem mem_splitLines_no_nl {s : L} {l : L} (h : l ∈ splitLines s) :
    ∀ c ∈ l, c ≠ nl := by
  induction s generalizing l with
  | nil =>
    simp only [splitLines, List.mem_singleton] at h
    subst h; simp
  | cons a as ih =>
    simp only [splitLines] at h
    by_cases ha : a = nl
    · rw [if_pos ha, List.mem_cons] at h
      rcases h with rfl | h
      · simp
      · exact ih h
    · rw [if_neg ha] at h
      cases hcs : splitLines as with
      | nil => exact absurd hcs (splitLines_ne_nil as)
      | cons l' ls' =>
        rw [hcs, List.mem_cons] at h
        rcases h with rfl | h
        · intro c hc
          rcases List.mem_cons.mp hc with rfl | hc
          · exact ha
          · exact ih (hcs ▸ List.mem_cons_self _ _) c hc
        · exact fun c hc => ih (hcs ▸ List.mem_cons_of_mem _ h) c hc

theorem splitLines_append_nl (l : L) (rest : L) (hl : ∀ c ∈ l, c ≠ nl) :
    splitLines (l ++ nl :: rest) = l :: splitLines rest := by
  induction l with
  | nil => simp [splitLines]
  | cons c cs ih =>
    have hc : c ≠ nl := hl c (List.mem_cons_self _ _)
    show splitLines (c :: (cs ++ nl :: rest)) = (c :: cs) :: splitLines rest
    simp only [splitLines, if_neg hc]
    rw [ih (fun x hx => hl x (List.mem_cons_of_mem _ hx))]

theorem splitLines_no_nl (l : L) (hl : ∀ c ∈ l, c ≠ nl) :
    splitLines l = [l] := by
  induction l with
  | nil => rfl
  | cons c cs ih =>
    have hc : c ≠ nl := hl c (List.mem_cons_self _ _)
    simp only [splitLines, if_neg hc]
    rw [ih (fun x hx => hl x (List.mem_cons_of_mem _ hx))]

theorem splitLines_joinLines (ls : List L) (hne : ls ≠ [])
    (h : ∀ l ∈ ls, ∀ c ∈ l, c ≠ nl) : splitLines (joinLines ls) = ls := by
  induction ls with
  | nil => exact absurd rfl hne
  | cons l ls ih =>
    cases ls with
    | nil =>
      simp only [joinLines]
      exact splitLines_no_nl l (h l (List.mem_cons_self _ _))
    | cons l' ls' =>
      rw [joinLines_cons _ _ (by simp)]
      rw [splitLines_append_nl l _ (h l (List.mem_cons_self _ _))]
      rw [ih (by simp) (fun x hx => h x (List.mem_cons_of_mem _ hx))]

theorem mem_splitLines_isInfix {s l : L} (h : l ∈ splitLines s) : l <:+: s := by
  induction s generalizing l with
  | nil =>
    simp only [splitLines, List.mem_singleton] at h
    subst h; exact List.infix_rfl
  | cons a as ih =>
    simp only [splitLines] at h
    by_cases ha : a = nl
    · rw [if_pos ha, List.mem_cons] at h
      rcases h with rfl | h
      · exact List.nil_infix
      · exact List.infix_cons (ih h)
    · rw [if_neg ha] at h
      cases hcs : splitLines as with
      | nil => exact absurd hcs (splitLines_ne_nil as)
      | cons l' ls' =>
        rw [hcs, List.mem_cons] at h
        rcases h with rfl | h
        · -- the first line of `as` is a prefix of `as`
          have hpre : l' <+: as := by
            have hj : joinLines (l' :: ls') = as := hcs ▸ joinLines_splitLines as
            cases ls' with
            | nil =>
              simp only [joinLines] at hj
              exact hj ▸ List.prefix_rfl
            | cons x xs =>
              rw [joinLines_cons _ _ (by simp)] at hj
              exact hj ▸ List.prefix_append _ _
          exact ((List.prefix_cons_inj a).mpr hpre).isInfix
        · exact List.infix_cons (ih (hcs ▸ List.mem_cons_of_mem _ h))

theorem chUpper_not_chLower {c : Char} (h : chUpper c = true) :
    chLower c = false := by
  simp only [chUpper, decide_eq_true_eq] at h
  simp only [chLower, decide_eq_false_iff_not]
  omega

theorem occurs_of_occurs_isInfix {p l s : L} (h : occurs p l = true)
    (hls : l <:+: s) : occurs p s = true := by
  rw [occurs_iff_isInfix] at h ⊢
  exact h.trans hls

theorem map_id_of_eq {α : Type} {f : α → α} : ∀ {l : List α},
    (∀ a ∈ l, f a = a) → l.map f = l := by
  intro l
  induction l with
  | nil => intro _; rfl
  | cons a as ih =>
    intro h
    simp only [List.map_cons, h a (List.mem_cons_self _ _),
      ih (fun x hx => h x (List.mem_cons_of_mem _ hx))]

/-! ### The automator pipeline, line by line -/

theorem applyPatternAuto_fst (p : L × L) (content : L) :
    (applyPatternAuto p.1 p.2 content).1 =
      joinLines ((splitLines content).map (stepP p)) := by
  unfold applyPatternAuto
  by_cases h : occurs p.1 content = true
  · rw [if_pos h]
    simp only [List.map_map]
    rfl
  · rw [if_neg h]
    have hf : ∀ l ∈ splitLines content, stepP p l = l := by
      intro l hl
      have hocc : occurs p.1 l = false := by
        cases hq : occurs p.1 l with
        | false => rfl
        | true =>
          exact absurd (occurs_of_occurs_isInfix hq (mem_splitLines_isInfix hl)) h
      simp [stepP, lineRepl, lineFires, hocc]
    rw [map_id_of_eq hf, joinLines_splitLines]

theorem stepP_of_marker {p : L × L} {l : L}
    (h : occurs appLocMarker l = true) : stepP p l = l := by
  have hfa : lineFires p.1 l = false := by simp [lineFires, h]
  simp [stepP, lineRepl, hfa]

theorem stepP_of_no_fires {p : L × L} {l : L}
    (h : lineFires p.1 l = false) : stepP p l = l := by
  simp [stepP, lineRepl, h]

theorem chainP_cons (p : L × L) (ps : List (L × L)) (l : L) :
    chainP (p :: ps) l = chainP ps (stepP p l) := rfl

theorem chainP_of_marker {l : L} (h : occurs appLocMarker l = true) :
    ∀ ps : List (L × L), chainP ps l = l := by
  intro ps
  induction ps with
  | nil => rfl
  | cons p ps ih =>
    rw [chainP_cons, stepP_of_marker h, ih]

theorem stepP_marker_of_fires {p : L × L} {l : L} (hne : p.1 ≠ [])
    (hmk : appLocMarker <:+: p.2) (hf : lineFires p.1 l = true) :
    occurs appLocMarker (stepP p l) = true := by
  have hocc : occurs p.1 l = true := by
    simp only [lineFires, Bool.and_eq_true] at hf
    exact hf.1
  have hin : p.2 <:+: (pyReplace l p.1 p.2).1 := repl_infix_pyReplace hne hocc
  have : appLocMarker <:+: (pyReplace l p.1 p.2).1 := hmk.trans hin
  rw [stepP, lineRepl, if_pos hf, occurs_iff_isInfix]
  exact this

theorem chainP_eq_or_marker : ∀ (ps : List (L × L)),
    (∀ p ∈ ps, p.1 ≠ [] ∧ appLocMarker <:+: p.2) → ∀ l,
      chainP ps l = l ∨ occurs appLocMarker (chainP ps l) = true := by
  intro ps
  induction ps with
  | nil => intro _ l; exact Or.inl rfl
  | cons p ps ih =>
    intro hg l
    have hgp := hg p (List.mem_cons_self _ _)
    have hg' := fun q hq => hg q (List.mem_cons_of_mem _ hq)
    rw [chainP_cons]
    cases hf : lineFires p.1 l with
    | true =>
      have hm := stepP_marker_of_fires hgp.1 hgp.2 hf
      rw [chainP_of_marker hm]
      exact Or.inr hm
    | false =>
      rw [stepP_of_no_fires hf]
      exact ih hg' l

theorem chainP_idem : ∀ (ps : List (L × L)),
    (∀ p ∈ ps, p.1 ≠ [] ∧ appLocMarker <:+: p.2) → ∀ l,
      chainP ps (chainP ps l) = chainP ps l := by
  intro ps
  induction ps with
  | nil => intro _ l; rfl
  | cons p ps ih =>
    intro hg l
    have hgp := hg p (List.mem_cons_self _ _)
    have hg' := fun q hq => hg q (List.mem_cons_of_mem _ hq)
    rw [chainP_cons, chainP_cons]
    cases hf : lineFires p.1 l with
    | true =>
      have hm := stepP_marker_of_fires hgp.1 hgp.2 hf
      rw [chainP_of_marker hm, stepP_of_marker hm, chainP_of_marker hm]
    | false =>
      rw [stepP_of_no_fires hf]
      rcases chainP_eq_or_marker ps hg' l with h | h
      · rw [h, stepP_of_no_fires hf, h]
      · rw [stepP_of_marker h, ih hg' _]

theorem stepP_no_nl {p : L × L} {l : L} (hl : ∀ c ∈ l, c ≠ nl)
    (hr : ∀ c ∈ p.2, c ≠ nl) : ∀ c ∈ stepP p l, c ≠ nl := by
  intro c hc
  rw [stepP, lineRepl] at hc
  by_cases hf : lineFires p.1 l = true
  · rw [if_pos hf] at hc
    rcases mem_replCore_fst hc with h | h
    · exact hl c h
    · exact hr c h
  · rw [if_neg hf] at hc
    exact hl c hc

theorem chainP_no_nl : ∀ (ps : List (L × L)),
    (∀ p ∈ ps, ∀ c ∈ p.2, c ≠ nl) → ∀ l, (∀ c ∈ l, c ≠ nl) →
      ∀ c ∈ chainP ps l, c ≠ nl := by
  intro ps
  induction ps with
  | nil => intro _ l hl; exact hl
  | cons p ps ih =>
    intro hr l hl
    rw [chainP_cons]
    exact ih (fun q hq => hr q (List.mem_cons_of_mem _ hq)) _
      (stepP_no_nl hl (hr p (List.mem_cons_self _ _)))

theorem map_stepP_ne_nil (p : L × L) (content : L) :
    (splitLines content).map (stepP p) ≠ [] := by
  cases hq : splitLines content with
  | nil => exact absurd hq (splitLines_ne_nil content)
  | cons l ls => simp

theorem foldApply_eq_chainP : ∀ (ps : List (L × L)),
    (∀ p ∈ ps, ∀ c ∈ p.2, c ≠ nl) → ∀ content,
      foldApply ps content = joinLines ((splitLines content).map (chainP ps)) := by
  intro ps
  induction ps with
  | nil =>
    intro _ content
    show content = _
    have : (splitLines content).map (chainP ([] : List (L × L))) =
        splitLines content := map_id_of_eq (fun l _ => rfl)
    rw [this, joinLines_splitLines]
  | cons p ps ih =>
    intro hr content
    have hrp := hr p (List.mem_cons_self _ _)
    have hr' := fun q hq => hr q (List.mem_cons_of_mem _ hq)
    show foldApply ps ((applyPatternAuto p.1 p.2 content).1) = _
    rw [ih hr' _, applyPatternAuto_fst]
    have hnl : ∀ l ∈ (splitLines content).map (stepP p), ∀ c ∈ l, c ≠ nl := by
      intro l hl
      obtain ⟨l₀, hl₀, rfl⟩ := List.mem_map.mp hl
      exact stepP_no_nl (mem_splitLines_no_nl hl₀) hrp
    rw [splitLines_joinLines _ (map_stepP_ne_nil p content) hnl, List.map_map]
    exact congrArg joinLines
      (List.map_congr_left (fun l _ => (chainP_cons p ps l).symm))

theorem automatorRewrite_foldl_fst : ∀ (m : List (L × L)) (content : L) (n : Nat),
    (m.foldl (fun acc e =>
        let r := applyEntryAuto acc.1 e.1 e.2
        (r.1, acc.2 + r.2)) (content, n)).1 = foldApply (patsOf m) content := by
  intro m
  induction m with
  | nil => intro content n; rfl
  | cons e m ih =>
    intro content n
    show (m.foldl _ ((applyEntryAuto content e.1 e.2).1, _)).1 = _
    rw [ih ((applyEntryAuto content e.1 e.2).1) _]
    show foldApply (patsOf m) (foldApply (pairsOf e.1 e.2) content) = _
    rw [patsOf]
    exact (List.foldl_append _ _ _ _).symm

theorem automatorRewrite_fst (m : List (L × L)) (content : L) :
    (automatorRewrite m content).1 = foldApply (patsOf m) content :=
  automatorRewrite_foldl_fst m content 0

theorem appLocMarker_no_nl : ∀ c ∈ appLocMarker, c ≠ nl := by decide

theorem pairsOf_good (t k : L) :
    ∀ p ∈ pairsOf t k, p.1 ≠ [] ∧ appLocMarker <:+: p.2 := by
  intro p hp
  simp only [pairsOf, List.mem_cons, List.not_mem_nil, or_false] at hp
  rcases hp with rfl | rfl
  · exact ⟨by simp [quotePat], (List.prefix_append _ _).isInfix⟩
  · exact ⟨by simp [quotePat], (List.prefix_append _ _).isInfix⟩

theorem patsOf_good : ∀ (m : List (L × L)),
    ∀ p ∈ patsOf m, p.1 ≠ [] ∧ appLocMarker <:+: p.2 := by
  intro m
  induction m with
  | nil => intro p hp; simp [patsOf] at hp
  | cons e m ih =>
    intro p hp
    rw [patsOf] at hp
    rcases List.mem_append.mp hp with h | h
    · exact pairsOf_good e.1 e.2 p h
    · exact ih p h

theorem lookupRepl_no_nl {k t : L} {q : Char} (hq : q ≠ nl)
    (hk : ∀ c ∈ k, c ≠ nl) (ht : ∀ c ∈ t, c ≠ nl) :
    ∀ c ∈ lookupRepl k q t, c ≠ nl := by
  intro c hc
  simp only [lookupRepl, quotePat, List.mem_append, List.mem_cons,
    List.mem_singleton, List.not_mem_nil, or_false] at hc
  rcases hc with h | h | h | h | rfl | h | rfl
  · exact appLocMarker_no_nl c h
  · revert h; revert c; decide
  · exact hk c h
  · revert h; revert c; decide
  · exact hq
  · exact ht c h
  · exact hq

theorem patsOf_no_nl : ∀ (m : List (L × L)),
    (∀ e ∈ m, (∀ c ∈ e.1, c ≠ nl) ∧ (∀ c ∈ e.2, c ≠ nl)) →
      ∀ p ∈ patsOf m, ∀ c ∈ p.2, c ≠ nl := by
  intro m
  induction m with
  | nil => intro _ p hp; simp [patsOf] at hp
  | cons e m ih =>
    intro hm p hp
    have hme := hm e (List.mem_cons_self _ _)
    rw [patsOf] at hp
    rcases List.mem_append.mp hp with h | h
    · simp only [pairsOf, List.mem_cons, List.not_mem_nil, or_false] at h
      rcases h with rfl | rfl
      · exact lookupRepl_no_nl (by decide) hme.2 hme.1
      · exact lookupRepl_no_nl (by decide) hme.2 hme.1
    · exact ih (fun x hx => hm x (List.mem_cons_of_mem _ hx)) p h

theorem automatorRewrite_repr (m : List (L × L))
    (hm : ∀ e ∈ m, (∀ c ∈ e.1, c ≠ nl) ∧ (∀ c ∈ e.2, c ≠ nl)) (content : L) :
    (automatorRewrite m content).1 =
      joinLines ((splitLines content).map (chainP (patsOf m))) := by
  rw [automatorRewrite_fst, foldApply_eq_chainP _ (patsOf_no_nl m hm)]

/-! ### ARB catalog facts -/

theorem hasKey_append_left {doc : ArbDoc} {k : L} (ext : ArbDoc)
    (h : hasKey doc k = true) : hasKey (doc ++ ext) k = true := by
  simp only [hasKey, List.any_append, Bool.or_eq_true]
  exact Or.inl h

theorem hasKey_foldl_of_preserved {f : ArbDoc × Nat → Suggestion → ArbDoc × Nat}
    (hpres : ∀ acc s k, hasKey acc.1 k = true → hasKey (f acc s).1 k = true)
    (hadd : ∀ acc s, hasKey (f acc s).1 s.key = true) :
    ∀ (suggs : List Suggestion) (acc : ArbDoc × Nat) (k : L),
      (hasKey acc.1 k = true ∨ ∃ s ∈ suggs, s.key = k) →
        hasKey (suggs.foldl f acc).1 k = true := by
  intro suggs
  induction suggs with
  | nil =>
    intro acc k h
    rcases h with h | ⟨s, hs, _⟩
    · exact h
    · simp at hs
  | cons s ss ih =>
    intro acc k h
    show hasKey (ss.foldl f (f acc s)).1 k = true
    rcases h with h | ⟨s', hs', rfl⟩
    · exact ih (f acc s) k (Or.inl (hpres acc s k h))
    · rcases List.mem_cons.mp hs' with rfl | hmem
      · exact ih (f acc s') s'.key (Or.inl (hadd acc s'))
      · exact ih (f acc s) s'.key (Or.inr ⟨s', hmem, rfl⟩)

theorem hasKey_addKeysDoc {doc : ArbDoc} {suggs : List Suggestion} {locale k : L}
    (h : hasKey doc k = true ∨ ∃ s ∈ suggs, s.key = k) :
    hasKey (addKeysDoc doc suggs locale).1 k = true := by
  refine hasKey_foldl_of_preserved ?_ ?_ suggs (doc, 0) k h
  · intro acc s k hk
    unfold addKeysStep
    by_cases hs : hasKey acc.1 s.key = true
    · simpa [hs] using hk
    · rw [Bool.not_eq_true] at hs
      simp only [hs, Bool.false_eq_true, if_false]
      exact hasKey_append_left _ hk
  · intro acc s
    unfold addKeysStep
    by_cases hs : hasKey acc.1 s.key = true
    · simp [hs]
    · rw [Bool.not_eq_true] at hs
      simp only [hs, Bool.false_eq_true, if_false]
      simp [hasKey, List.any_append]

theorem addKeysStep_cases (locale : L) (acc : ArbDoc × Nat) (s : Suggestion) :
    addKeysStep locale acc s = acc ∨ (addKeysStep locale acc s).2 = acc.2 + 1 := by
  unfold addKeysStep
  by_cases hs : hasKey acc.1 s.key = true
  · left
    rw [if_pos hs]
  · right
    rw [Bool.not_eq_true] at hs
    simp only [hs, Bool.false_eq_true, if_false]

theorem foldl_count_mono {f : ArbDoc × Nat → Suggestion → ArbDoc × Nat}
    (hstep : ∀ acc s, f acc s = acc ∨ (f acc s).2 = acc.2 + 1) :
    ∀ (suggs : List Suggestion) (acc : ArbDoc × Nat),
      acc.2 ≤ (suggs.foldl f acc).2 := by
  intro suggs
  induction suggs with
  | nil => intro acc; exact Nat.le_refl _
  | cons s ss ih =>
    intro acc
    show acc.2 ≤ (ss.foldl f (f acc s)).2
    rcases hstep acc s with h | h
    · rw [h]
      exact ih acc
    · have h2 := ih (f acc s)
      omega

theorem foldl_eq_or_count_lt {f : ArbDoc × Nat → Suggestion → ArbDoc × Nat}
    (hstep : ∀ acc s, f acc s = acc ∨ (f acc s).2 = acc.2 + 1) :
    ∀ (suggs : List Suggestion) (acc : ArbDoc × Nat),
      suggs.foldl f acc = acc ∨ acc.2 < (suggs.foldl f acc).2 := by
  intro suggs
  induction suggs with
  | nil => intro acc; exact Or.inl rfl
  | cons s ss ih =>
    intro acc
    show ss.foldl f (f acc s) = acc ∨ acc.2 < (ss.foldl f (f acc s)).2
    rcases hstep acc s with h | h
    · rw [h]
      exact ih acc
    · right
      have h2 := foldl_count_mono hstep ss (f acc s)
      omega

theorem stateHasKey_add_keys {st : ArbFileState} {suggs : List Suggestion}
    {locale k : L} (hst : st ≠ ArbFileState.malformed)
    (hk : ∃ s ∈ suggs, s.key = k) (hkm : k ≠ localeMarkerKey) :
    stateHasKey (add_keys_to_arb_file st suggs locale) k = true := by
  cases st with
  | malformed => exact absurd rfl hst
  | absent =>
    have hmem : hasKey (addKeysDoc (arbBase none locale) suggs locale).1 k = true :=
      hasKey_addKeysDoc (Or.inr hk)
    have hbase : hasKey (arbBase none locale) k = false := by
      simp only [arbBase, Option.getD, hasKey, List.any_cons, List.any_nil,
        Bool.or_false, decide_eq_false_iff_not]
      exact fun he => hkm he.symm
    have hpos : 0 < (addKeysDoc (arbBase none locale) suggs locale).2 := by
      rcases foldl_eq_or_count_lt (addKeysStep_cases locale) suggs
          (arbBase none locale, 0) with h | h
      · exfalso
        unfold addKeysDoc at hmem
        rw [h] at hmem
        rw [hbase] at hmem
        exact Bool.false_ne_true hmem
      · exact h
    show stateHasKey
      (if (addKeysDoc (arbBase none locale) suggs locale).2 > 0 then
        ArbFileState.wellFormed ((addKeysDoc (arbBase none locale) suggs locale).1)
      else ArbFileState.absent) k = true
    rw [if_pos hpos]
    exact hmem
  | wellFormed d =>
    have hmem : hasKey (addKeysDoc (arbBase (some d) locale) suggs locale).1 k = true :=
      hasKey_addKeysDoc (Or.inr hk)
    show stateHasKey
      (if (addKeysDoc (arbBase (some d) locale) suggs locale).2 > 0 then
        ArbFileState.wellFormed ((addKeysDoc (arbBase (some d) locale) suggs locale).1)
      else ArbFileState.wellFormed d) k = true
    by_cases hpos : 0 < (addKeysDoc (arbBase (some d) locale) suggs locale).2
    · rw [if_pos hpos]
      exact hmem
    · rw [if_neg hpos]
      rcases foldl_eq_or_count_lt (addKeysStep_cases locale) suggs
          (arbBase (some d) locale, 0) with h | h
      · unfold addKeysDoc at hmem
        rw [h] at hmem
        exact hmem
      · exfalso
        unfold addKeysDoc at hpos
        exact hpos h

/-! ### Confidence filter facts -/

theorem occurs_singleton_iff {c : Char} {s : L} : occurs [c] s = true ↔ c ∈ s := by
  rw [occurs_iff_isInfix]
  constructor
  · intro h
    exact h.sublist.mem (List.mem_singleton_self c)
  · intro h
    obtain ⟨l₁, l₂, rfl⟩ := List.append_of_mem h
    exact ⟨l₁, l₂, by simp⟩

theorem dollar_check_iff {v : L} :
    (occurs dollarBraceTok v || occurs dollarTok v) = true ↔ '$' ∈ v := by
  have hd : dollarTok = ['$'] := rfl
  constructor
  · intro h
    rcases (Bool.or_eq_true _ _).mp h with h | h
    · exact mem_of_occurs (by decide) h
    · exact mem_of_occurs (by decide) h
  · intro h
    have : occurs dollarTok v = true := by
      rw [hd]
      exact occurs_singleton_iff.mpr h
    simp [this]

theorem pyIsUpper_iff {v : L} :
    pyIsUpper v = true ↔
      (∃ c ∈ v, chAlpha c = true) ∧ (∀ c ∈ v, chAlpha c = true → chUpper c = true) := by
  simp only [pyIsUpper, Bool.and_eq_true, List.any_eq_true, List.all_eq_true,
    Bool.not_eq_true']
  constructor
  · rintro ⟨hex, hall⟩
    refine ⟨hex, ?_⟩
    intro c hc hal
    have hl := hall c hc
    simp only [chAlpha, Bool.or_eq_true] at hal
    rcases hal with h | h
    · exact h
    · rw [hl] at h
      exact absurd h (by simp)
  · rintro ⟨hex, hall⟩
    refine ⟨hex, ?_⟩
    intro c hc
    cases hl : chLower c with
    | false => rfl
    | true =>
      have hal : chAlpha c = true := by simp [chAlpha, hl]
      have hu := hall c hc hal
      rw [chUpper_not_chLower hu] at hl
      exact absurd hl (by simp)

theorem keepSuggestion_iff (existingEn : List L) (minConf : ℚ) (s : Suggestion) :
    keepSuggestion existingEn minConf s = true ↔ specKeep existingEn minConf s := by
  unfold keepSuggestion specKeep
  simp only [Bool.and_eq_true, Bool.not_eq_true']
  constructor
  · rintro ⟨⟨⟨⟨h1, h2⟩, h3⟩, h4⟩, h5⟩
    refine ⟨?_, ?_, ?_, ?_, ?_⟩
    · rw [decide_eq_false_iff_not] at h1
      exact le_of_not_lt h1
    · intro hin
      have := dollar_check_iff.mpr hin
      rw [h2] at this
      exact absurd this (by simp)
    · rcases Bool.and_eq_false_iff.mp h3 with h | h
      · rw [decide_eq_false_iff_not] at h
        exact Or.inl (le_of_not_lt h)
      · rw [Bool.not_eq_false', Bool.or_eq_true, decide_eq_true_eq,
          decide_eq_true_eq] at h
        exact Or.inr h
    · intro hcon
      rcases Bool.and_eq_false_iff.mp h4 with h | h
      · have : pyIsUpper s.value = true := pyIsUpper_iff.mpr ⟨hcon.1, hcon.2.1⟩
        rw [h] at this
        exact absurd this (by simp)
      · rw [Bool.not_eq_false', decide_eq_true_eq] at h
        exact hcon.2.2 h
    · rw [decide_eq_false_iff_not] at h5
      exact h5
  · rintro ⟨h1, h2, h3, h4, h5⟩
    refine ⟨⟨⟨⟨?_, ?_⟩, ?_⟩, ?_⟩, ?_⟩
    · rw [decide_eq_false_iff_not]
      exact not_lt_of_le h1
    · cases hq : (occurs dollarBraceTok s.value || occurs dollarTok s.value) with
      | false => rfl
      | true => exact absurd (dollar_check_iff.mp hq) h2
    · rw [Bool.and_eq_false_iff]
      rcases h3 with h | h
      · exact Or.inl (by rw [decide_eq_false_iff_not]; exact not_lt_of_le h)
      · refine Or.inr ?_
        rw [Bool.not_eq_false', Bool.or_eq_true, decide_eq_true_eq,
          decide_eq_true_eq]
        exact h
    · rw [Bool.and_eq_false_iff]
      cases hu : pyIsUpper s.value with
      | false => exact Or.inl rfl
      | true =>
        refine Or.inr ?_
        rw [Bool.not_eq_false', decide_eq_true_eq]
        by_contra hsp
        have := pyIsUpper_iff.mp hu
        exact h4 ⟨this.1, this.2, hsp⟩
    · rw [decide_eq_false_iff_not]
      exact h5

/-! ### Import fixer facts -/

theorem lastImportIdxAux_all_not : ∀ (ls : List L) (i : Nat) (acc : Option Nat),
    (∀ l ∈ ls, isImportLine l = false) → lastImportIdxAux i acc ls = acc := by
  intro ls
  induction ls with
  | nil => intro i acc _; rfl
  | cons l ls ih =>
    intro i acc h
    have hl := h l (List.mem_cons_self _ _)
    show lastImportIdxAux (i + 1) (if isImportLine l then some i else acc) ls = acc
    rw [hl]
    simp only [Bool.false_eq_true, if_false]
    exact ih (i + 1) acc (fun x hx => h x (List.mem_cons_of_mem _ hx))

theorem lastImportIdxAux_last : ∀ (A : List L) (imp : L) (B : List L)
    (i : Nat) (acc : Option Nat), isImportLine imp = true →
    (∀ l ∈ B, isImportLine l = false) →
      lastImportIdxAux i acc (A ++ imp :: B) = some (i + A.length) := by
  intro A
  induction A with
  | nil =>
    intro imp B i acc himp hB
    show lastImportIdxAux (i + 1) (if isImportLine imp then some i else acc) B =
      some (i + 0)
    rw [himp]
    simp only [if_true]
    rw [lastImportIdxAux_all_not B _ _ hB]
    simp
  | cons a A ih =>
    intro imp B i acc himp hB
    show lastImportIdxAux (i + 1) (if isImportLine a then some i else acc)
        (A ++ imp :: B) = some (i + (a :: A).length)
    rw [ih imp B (i + 1) _ himp hB]
    simp only [List.length_cons]
    congr 1
    omega

theorem firstCodeIdxAux_skip : ∀ (C : List L) (first : L) (D : List L) (i : Nat),
    (∀ l ∈ C, isSkippableTop l = true) → isSkippableTop first = false →
      firstCodeIdxAux i (C ++ first :: D) = some (i + C.length) := by
  intro C
  induction C with
  | nil =>
    intro first D i _ hf
    show (if isSkippableTop first then firstCodeIdxAux (i + 1) D else some i) =
      some (i + 0)
    rw [hf]
    simp
  | cons c C ih =>
    intro first D i hC hf
    have hc := hC c (List.mem_cons_self _ _)
    show (if isSkippableTop c then firstCodeIdxAux (i + 1) (C ++ first :: D)
          else some i) = some (i + (c :: C).length)
    rw [hc]
    simp only [if_true]
    rw [ih first D (i + 1) (fun x hx => hC x (List.mem_cons_of_mem _ hx)) hf]
    simp only [List.length_cons]
    congr 1
    omega

theorem insertAt_after {α : Type} : ∀ (A : List α) (b : α) (C : List α) (a : α),
    insertAt (A.length + 1) a (A ++ b :: C) = A ++ b :: a :: C := by
  intro A
  induction A with
  | nil => intro b C a; rfl
  | cons x A ih =>
    intro b C a
    show x :: insertAt (A.length + 1) a (A ++ b :: C) = x :: (A ++ b :: a :: C)
    rw [ih]

theorem fix_missing_imports_insert (path : L) (ls : List L) (hne : ls ≠ [])
    (hnl : ∀ l ∈ ls, ∀ c ∈ l, c ≠ nl)
    (hmk : occurs appLocMarker (joinLines ls) = true)
    (hvar : hasImportVariant (joinLines ls) = false) (idx : Nat)
    (hidx : (match lastImportIdxAux 0 none ls with
             | some i => i
             | none => (firstCodeIdxAux 0 ls).getD 0) = idx) :
    (fix_missing_imports path (joinLines ls)).1 =
      joinLines (insertAt (idx + 1) (importStatement path) ls) := by
  unfold fix_missing_imports
  rw [hmk, hvar]
  simp only [Bool.not_true, Bool.false_eq_true, if_false]
  rw [splitLines_joinLines ls hne hnl, hidx]

/-! ### Single-site rewriting facts -/

theorem quotePat_ne_nil (q : Char) (t : L) : quotePat q t ≠ [] := by
  simp [quotePat]

theorem applyPatternAuto_no_occ {pat repl content : L}
    (h : occurs pat content = false) :
    (applyPatternAuto pat repl content).1 = content := by
  simp [applyPatternAuto, h]

theorem content_no_nl_of_parts {q : Char} {pre t suf : L} (hq : q ≠ nl)
    (hpre : ∀ c ∈ pre, c ≠ nl) (ht : ∀ c ∈ t, c ≠ nl)
    (hsuf : ∀ c ∈ suf, c ≠ nl) :
    ∀ c ∈ pre ++ quotePat q t ++ suf, c ≠ nl := by
  intro c hc
  simp only [quotePat, List.mem_append, List.mem_cons, List.mem_singleton,
    List.not_mem_nil, or_false] at hc
  rcases hc with (h | rfl | h | rfl) | h
  · exact hpre c h
  · exact hq
  · exact ht c h
  · exact hq
  · exact hsuf c h

theorem applyPatternAuto_marker_noop {pat repl content : L}
    (hnl : ∀ c ∈ content, c ≠ nl)
    (hmk : occurs appLocMarker content = true) :
    (applyPatternAuto pat repl content).1 = content := by
  have h1 : (applyPatternAuto pat repl content).1 =
      joinLines ((splitLines content).map (stepP (pat, repl))) :=
    applyPatternAuto_fst (pat, repl) content
  rw [h1, splitLines_no_nl content hnl]
  show joinLines [stepP (pat, repl) content] = content
  rw [stepP_of_marker hmk]
  rfl

theorem applyPatternAuto_single_site {q : Char} {t k pre suf : L}
    (hq : q ≠ nl) (hpre : ∀ c ∈ pre, c ≠ nl) (ht : ∀ c ∈ t, c ≠ nl)
    (hsuf : ∀ c ∈ suf, c ≠ nl)
    (hmk : occurs appLocMarker (pre ++ quotePat q t ++ suf) = false)
    (hdup : occurs (quotePat q t) ((pre ++ quotePat q t).dropLast) = false)
    (hns : occurs (quotePat q t) suf = false) :
    (applyPatternAuto (quotePat q t) (lookupRepl k q t)
        (pre ++ quotePat q t ++ suf)).1 = pre ++ lookupRepl k q t ++ suf := by
  have hnl := content_no_nl_of_parts hq hpre ht hsuf
  have h1 : (applyPatternAuto (quotePat q t) (lookupRepl k q t)
      (pre ++ quotePat q t ++ suf)).1 =
      joinLines ((splitLines (pre ++ quotePat q t ++ suf)).map
        (stepP (quotePat q t, lookupRepl k q t))) :=
    applyPatternAuto_fst (quotePat q t, lookupRepl k q t) _
  rw [h1, splitLines_no_nl _ hnl]
  have hfires : lineFires (quotePat q t) (pre ++ quotePat q t ++ suf) = true := by
    rw [lineFires, occurs_mid, hmk]
    rfl
  show joinLines [stepP (quotePat q t, lookupRepl k q t)
    (pre ++ quotePat q t ++ suf)] = _
  show (lineRepl (quotePat q t) (lookupRepl k q t) (pre ++ quotePat q t ++ suf)).1 = _
  rw [lineRepl, if_pos hfires,
    pyReplace_fst_split (lookupRepl k q t) (quotePat_ne_nil q t) pre suf hdup,
    pyReplace_fst_of_not_occurs _ hns]

theorem reEscape_id : ∀ {s : L}, (∀ c ∈ s, reSpecial c = false) → reEscape s = s := by
  intro s
  induction s with
  | nil => intro _; rfl
  | cons c cs ih =>
    intro h
    show (if reSpecial c then [bs, c] else [c]) ++ reEscape cs = c :: cs
    rw [h c (List.mem_cons_self _ _)]
    simp only [Bool.false_eq_true, if_false]
    rw [ih (fun x hx => h x (List.mem_cons_of_mem _ hx))]
    rfl

theorem quotePat_no_special {q : Char} {t : L} (hq : reSpecial q = false)
    (ht : ∀ c ∈ t, reSpecial c = false) :
    ∀ c ∈ quotePat q t, reSpecial c = false := by
  intro c hc
  simp only [quotePat, List.mem_cons, List.mem_append, List.mem_singleton,
    List.not_mem_nil, or_false] at hc
  rcases hc with rfl | hc | rfl
  · exact hq
  · exact ht c hc
  · exact hq

/-! ### Skip-heuristic facts -/

theorem takeWhile_dropWhile_split {p : Char → Bool} : ∀ (a : L) {b : Char} (c : L),
    (∀ x ∈ a, p x = true) → p b = false →
      (a ++ b :: c).takeWhile p = a ∧ (a ++ b :: c).dropWhile p = b :: c := by
  intro a
  induction a with
  | nil =>
    intro b c _ hb
    have hb' : ¬ p b = true := by simp [hb]
    constructor
    · show List.takeWhile p (b :: c) = []
      rw [List.takeWhile_cons_of_neg hb']
    · show List.dropWhile p (b :: c) = b :: c
      rw [List.dropWhile_cons_of_neg hb']
  | cons x a ih =>
    intro b c h hb
    have hx := h x (List.mem_cons_self _ _)
    have ih' := ih c (fun y hy => h y (List.mem_cons_of_mem _ hy)) hb
    constructor
    · show List.takeWhile p (x :: (a ++ b :: c)) = x :: a
      rw [List.takeWhile_cons_of_pos hx, ih'.1]
    · show List.dropWhile p (x :: (a ++ b :: c)) = b :: c
      rw [List.dropWhile_cons_of_pos hx, ih'.2]

theorem dropWhile_head_false {p : Char → Bool} :
    ∀ {l : List Char} {a : Char} {rest : List Char},
      l.dropWhile p = a :: rest → p a = false := by
  intro l
  induction l with
  | nil => intro a rest h; simp [List.dropWhile] at h
  | cons x xs ih =>
    intro a rest h
    cases hp : p x with
    | true =>
      rw [List.dropWhile_cons_of_pos hp] at h
      exact ih h
    | false =>
      rw [List.dropWhile_cons_of_neg (by simp [hp])] at h
      injection h with h1 _
      subst h1
      exact hp

theorem emailLocalChar_ne_at {c : Char} (h : emailLocalChar c = true) : c ≠ '@' := by
  intro he; subst he; exact absurd h (by decide)

theorem chAlpha_ne_dot {c : Char} (h : chAlpha c = true) : c ≠ '.' := by
  intro he; subst he; exact absurd h (by decide)

theorem matchEmail_eq_nil {t : L}
    (hdw : t.dropWhile (fun c => !(c = '@')) = []) : matchEmail t = false := by
  unfold matchEmail
  rw [hdw]

theorem matchEmail_eq_cons {t : L} {a : Char} {dom : L}
    (hdw : t.dropWhile (fun c => !(c = '@')) = a :: dom) :
    matchEmail t = (!(t.takeWhile (fun c => !(c = '@'))).isEmpty &&
      (t.takeWhile (fun c => !(c = '@'))).all emailLocalChar && emailDomOk dom) := by
  unfold matchEmail
  rw [hdw]

theorem emailDomOk_eq_nil {dom : L}
    (hdw : dom.reverse.dropWhile (fun c => !(c = '.')) = []) :
    emailDomOk dom = false := by
  unfold emailDomOk
  rw [hdw]

theorem emailDomOk_eq_cons {dom : L} {d : Char} {domR : L}
    (hdw : dom.reverse.dropWhile (fun c => !(c = '.')) = d :: domR) :
    emailDomOk dom = (!(domR.reverse).isEmpty &&
      (domR.reverse).all emailDomChar &&
      decide (2 ≤ ((dom.reverse.takeWhile (fun c => !(c = '.'))).reverse).length) &&
      ((dom.reverse.takeWhile (fun c => !(c = '.'))).reverse).all chAlpha) := by
  unfold emailDomOk
  rw [hdw]

theorem matchEmail_iff {t : L} : matchEmail t = true ↔ emailSpec t := by
  constructor
  · intro h
    cases hdw : t.dropWhile (fun c => !(c = '@')) with
    | nil =>
      rw [matchEmail_eq_nil hdw] at h
      exact absurd h (by simp)
    | cons a dom =>
      rw [matchEmail_eq_cons hdw] at h
      simp only [Bool.and_eq_true, Bool.not_eq_true', List.isEmpty_eq_false,
        List.all_eq_true] at h
      obtain ⟨⟨hlocne, hlocall⟩, hdomok⟩ := h
      have ha : a = '@' := by
        have hhd := dropWhile_head_false hdw
        simpa using hhd
      subst ha
      have ht : t = t.takeWhile (fun c => !(c = '@')) ++ '@' :: dom := by
        conv_lhs => rw [← List.takeWhile_append_dropWhile (fun c => !(c = '@')) t]
        rw [hdw]
      cases hdw2 : dom.reverse.dropWhile (fun c => !(c = '.')) with
      | nil =>
        rw [emailDomOk_eq_nil hdw2] at hdomok
        exact absurd hdomok (by simp)
      | cons d domR =>
        rw [emailDomOk_eq_cons hdw2] at hdomok
        simp only [Bool.and_eq_true, Bool.not_eq_true', List.isEmpty_eq_false,
          List.all_eq_true, decide_eq_true_eq] at hdomok
        obtain ⟨⟨⟨hbefne, hbefall⟩, hlen⟩, htldall⟩ := hdomok
        have hd : d = '.' := by
          have hhd := dropWhile_head_false hdw2
          simpa using hhd
        subst hd
        have hdomrev : dom.reverse =
            dom.reverse.takeWhile (fun c => !(c = '.')) ++ '.' :: domR := by
          conv_lhs =>
            rw [← List.takeWhile_append_dropWhile (fun c => !(c = '.')) dom.reverse]
          rw [hdw2]
        have hdom : dom = domR.reverse ++ '.' ::
            (dom.reverse.takeWhile (fun c => !(c = '.'))).reverse := by
          have := congrArg List.reverse hdomrev
          rw [List.reverse_reverse, List.reverse_append, List.reverse_cons,
            List.append_assoc] at this
          simpa using this
        refine ⟨t.takeWhile (fun c => !(c = '@')), domR.reverse,
          (dom.reverse.takeWhile (fun c => !(c = '.'))).reverse,
          ?_, hlocne, hlocall, hbefne, hbefall, hlen, htldall⟩
        rw [← hdom, ← ht]
  · rintro ⟨loc, dom, tld, rfl, hlocne, hlocall, hdomne, hdomall, hlen, htldall⟩
    have h1 : ∀ x ∈ loc, (!(decide (x = '@'))) = true := by
      intro x hx
      have := emailLocalChar_ne_at (hlocall x hx)
      simp [this]
    have h2 : (!(decide ('@' = '@'))) = false := by decide
    have hsplit := takeWhile_dropWhile_split loc (dom ++ '.' :: tld) h1 h2
    rw [matchEmail_eq_cons hsplit.2, hsplit.1]
    have hrev : (dom ++ '.' :: tld).reverse = tld.reverse ++ '.' :: dom.reverse := by
      rw [List.reverse_append, List.reverse_cons, List.append_assoc]
      rfl
    have h3 : ∀ x ∈ tld.reverse, (!(decide (x = '.'))) = true := by
      intro x hx
      have := chAlpha_ne_dot (htldall x (List.mem_reverse.mp hx))
      simp [this]
    have h4 : (!(decide ('.' = '.'))) = false := by decide
    have hsplit2 := takeWhile_dropWhile_split tld.reverse dom.reverse h3 h4
    have hdw2 : (dom ++ '.' :: tld).reverse.dropWhile (fun c => !(c = '.')) =
        '.' :: dom.reverse := by
      rw [hrev]
      exact hsplit2.2
    rw [emailDomOk_eq_cons hdw2]
    have htw2 : ((dom ++ '.' :: tld).reverse.takeWhile
        (fun c => !(c = '.'))).reverse = tld := by
      rw [hrev, hsplit2.1, List.reverse_reverse]
    rw [htw2, List.reverse_reverse]
    simp only [Bool.and_eq_true, Bool.not_eq_true', List.isEmpty_eq_false,
      List.all_eq_true, decide_eq_true_eq]
    exact ⟨⟨hlocne, hlocall⟩, ⟨⟨⟨hdomne, hdomall⟩, hlen⟩, htldall⟩⟩

theorem matchUrl_iff {t : L} : matchUrl t = true ↔ urlSpec t := by
  simp [matchUrl, urlSpec, List.isPrefixOf_iff_prefix]

theorem matchNum_iff {t : L} : matchNum t = true ↔ intSpec t := by
  simp [matchNum, intSpec, List.all_eq_true, List.isEmpty_eq_false]

theorem matchPhone_iff {t : L} : matchPhone t = true ↔ phoneSpec t := by
  simp only [matchPhone, phoneSpec, Bool.and_eq_true, Bool.not_eq_true',
    List.isEmpty_eq_false, List.all_eq_true, Bool.or_eq_true, decide_eq_true_eq]
  constructor
  · rintro ⟨h1, h2⟩
    refine ⟨h1, ?_⟩
    intro c hc
    have := h2 c hc
    tauto
  · rintro ⟨h1, h2⟩
    refine ⟨h1, ?_⟩
    intro c hc
    have := h2 c hc
    tauto

theorem matchTemplate_iff {t : L} : matchTemplate t = true ↔ tmplSpec t := by
  constructor
  · intro h
    unfold matchTemplate at h
    simp only [Bool.and_eq_true, List.all_eq_true, decide_eq_true_eq,
      List.isPrefixOf_iff_prefix, Bool.not_eq_true',
      decide_eq_false_iff_not] at h
    obtain ⟨⟨⟨hpre, hlen⟩, hlast⟩, hmid⟩ := h
    obtain ⟨u, hu⟩ := hpre
    have hune : u ≠ [] := by
      intro h0
      subst h0
      rw [← hu] at hlen
      simp at hlen
    have hgl : u.getLast hune = rbrace := by
      have hq : t.getLast? = u.getLast? := by
        rw [← hu]
        show (['$', lbrace] ++ u).getLast? = u.getLast?
        exact List.getLast?_append_of_ne_nil _ hune
      rw [hq, List.getLast?_eq_getLast u hune] at hlast
      exact Option.some_inj.mp hlast
    have hu2 : u.dropLast ++ [rbrace] = u := by
      conv_rhs => rw [← List.dropLast_append_getLast hune]
      rw [hgl]
    refine ⟨u.dropLast, ?_, ?_⟩
    · rw [← hu, hu2]
      rfl
    · intro c hc
      have hdd : (t.drop 2).dropLast = u.dropLast := by
        rw [← hu]
        rfl
      exact hmid c (hdd ▸ hc)
  · rintro ⟨mid, rfl, hmid⟩
    unfold matchTemplate
    simp only [Bool.and_eq_true, List.all_eq_true, decide_eq_true_eq,
      List.isPrefixOf_iff_prefix, Bool.not_eq_true',
      decide_eq_false_iff_not]
    refine ⟨⟨⟨⟨mid ++ [rbrace], rfl⟩, ?_⟩, ?_⟩, ?_⟩
    · simp
    · show (('$' :: lbrace :: mid) ++ [rbrace]).getLast? = some rbrace
      exact List.getLast?_concat _
    · intro c hc
      have hdd : (('$' :: lbrace :: (mid ++ [rbrace])).drop 2).dropLast = mid := by
        show (mid ++ [rbrace]).dropLast = mid
        exact List.dropLast_concat
      exact hmid c (hdd ▸ hc)

theorem matchConst_iff {t : L} : matchConst t = true ↔ constSpec t := by
  cases t with
  | nil =>
    simp only [matchConst, constSpec]
    constructor
    · intro h; exact absurd h (by simp)
    · rintro ⟨c, cs, h, -, -⟩; exact absurd h (by simp)
  | cons c cs =>
    simp only [matchConst, Bool.and_eq_true, Bool.or_eq_true, List.all_eq_true,
      decide_eq_true_eq, constSpec]
    constructor
    · rintro ⟨h1, h2⟩
      refine ⟨c, cs, rfl, h1, ?_⟩
      intro d hd
      have := h2 d hd
      tauto
    · rintro ⟨c', cs', heq, h1, h2⟩
      injection heq with e1 e2
      subst e1
      subst e2
      refine ⟨h1, ?_⟩
      intro d hd
      have := h2 d hd
      tauto

theorem matchCamel_iff {t : L} : matchCamel t = true ↔ camelSpec t := by
  cases t with
  | nil =>
    simp only [matchCamel, camelSpec]
    constructor
    · intro h; exact absurd h (by simp)
    · rintro ⟨c, cs, h, -, -⟩; exact absurd h (by simp)
  | cons c cs =>
    simp only [matchCamel, Bool.and_eq_true, List.all_eq_true, camelSpec]
    constructor
    · rintro ⟨h1, h2⟩
      exact ⟨c, cs, rfl, h1, h2⟩
    · rintro ⟨c', cs', heq, h1, h2⟩
      injection heq with e1 e2
      subst e1
      subst e2
      exact ⟨h1, h2⟩

/-!
## Claim theorems
-/

set_option maxRecDepth 16000

/-- **C1** — context safety, evaluated at the failing input.  The claim
says the rewrite step never inserts the dynamic lookup into a
compile-time-constant, field-initializer or static-declaration site
without removing the constant qualifier.  The suggestion applier does
exactly that: on `static const greeting = 'Hello';` it produces
`static const greeting = AppLocalizations.of(context)?.hello ?? 'Hello';`,
and even on `const Text('Hello')` the bare-literal pattern matches first
(the de-`const`ing branch is unreachable), leaving
`const Text(AppLocalizations.of(context)?.hello ?? 'Hello')`. -/
theorem c1_rewrite_into_const_context :
    (applySuggFile
        ("static const greeting = ".toList ++ quotePat sq "Hello".toList ++ ";".toList)
        [("hello".toList, "Hello".toList)]).1 =
      "static const greeting = ".toList ++
        suggReplacement "hello".toList "Hello".toList ++ ";".toList ∧
    (applySuggFile
        ("const Text(".toList ++ quotePat sq "Hello".toList ++ ")".toList)
        [("hello".toList, "Hello".toList)]).1 =
      "const Text(".toList ++
        suggReplacement "hello".toList "Hello".toList ++ ")".toList := by
  constructor <;> decide

/-- **C2** — counterexample: the suggestion applier's rewrite is not
idempotent for a fixed suggestion set.  Applying it twice to
`Text('Hi')` double-wraps the fallback literal, because the fallback
`'Hi'` of the first pass matches the bare-literal pattern again. -/
theorem c2_suggestion_applier_not_idempotent :
    (applySuggFile
        (applySuggFile ("Text(".toList ++ quotePat sq "Hi".toList ++ ")".toList)
          [("hi".toList, "Hi".toList)]).1
        [("hi".toList, "Hi".toList)]).1 ≠
      (applySuggFile ("Text(".toList ++ quotePat sq "Hi".toList ++ ")".toList)
        [("hi".toList, "Hi".toList)]).1 := by
  decide

/-- **C2** (amended) — the automator's line-based rewriter is idempotent:
for every translation mapping whose texts and keys contain no newline and
every content, a second run over the rewritten output changes nothing.
Rewritten lines carry the `AppLocalizations.of(context)` marker and are
skipped; untouched lines still fail the same pattern tests. -/
theorem c2_automator_rewrite_idempotent (m : List (L × L)) (content : L)
    (hm : ∀ e ∈ m, (∀ c ∈ e.1, c ≠ nl) ∧ (∀ c ∈ e.2, c ≠ nl)) :
    (automatorRewrite m (automatorRewrite m content).1).1 =
      (automatorRewrite m content).1 := by
  have h1 := automatorRewrite_repr m hm content
  have h2 := automatorRewrite_repr m hm (automatorRewrite m content).1
  rw [h2, h1]
  have hnl : ∀ l ∈ (splitLines content).map (chainP (patsOf m)), ∀ c ∈ l, c ≠ nl := by
    intro l hl
    obtain ⟨l₀, hl₀, rfl⟩ := List.mem_map.mp hl
    exact chainP_no_nl (patsOf m) (patsOf_no_nl m hm) l₀ (mem_splitLines_no_nl hl₀)
  have hne : (splitLines content).map (chainP (patsOf m)) ≠ [] := by
    cases hq : splitLines content with
    | nil => exact absurd hq (splitLines_ne_nil content)
    | cons l ls => simp
  rw [splitLines_joinLines _ hne hnl, List.map_map]
  exact congrArg joinLines
    (List.map_congr_left (fun l _ => chainP_idem (patsOf m) (patsOf_good m) l))

/-- Witness for the amended C2 theorem at a concrete mapping and file. -/
theorem c2_automator_rewrite_idempotent_witness :
    (automatorRewrite [("Save".toList, "save".toList)]
        (automatorRewrite [("Save".toList, "save".toList)]
          ("Text(".toList ++ quotePat sq "Save".toList ++ ")".toList)).1).1 =
      (automatorRewrite [("Save".toList, "save".toList)]
        ("Text(".toList ++ quotePat sq "Save".toList ++ ")".toList)).1 :=
  c2_automator_rewrite_idempotent [("Save".toList, "save".toList)]
    ("Text(".toList ++ quotePat sq "Save".toList ++ ")".toList) (by decide)

/-- **C9** — skip-heuristic correctness: for every candidate string, the
extractor's skip predicate returns true exactly when the trimmed string
has length below 2 or matches one of the seven shapes — URL prefix, bare
integer, phone-number-shaped string, email address, template-variable-only
content, ALL-CAPS single-token constant, or bare single lower-camel-case
identifier — and false for every other string. -/
theorem c9_skip_heuristic_exact (text : L) :
    should_skip_string text = true ↔ skipSpec text := by
  unfold should_skip_string skipSpec
  by_cases hlen : (pyStrip text).length < 2
  · simp [hlen]
  · rw [if_neg hlen]
    simp only [Bool.or_eq_true]
    rw [matchUrl_iff, matchNum_iff, matchPhone_iff, matchEmail_iff,
      matchTemplate_iff, matchConst_iff, matchCamel_iff]
    tauto

/-- **C10** — dry-run purity: for every mapping and file content, a
dry run leaves the on-disk content byte-for-byte unchanged and returns
exactly the change count a real run would compute on the same input. -/
theorem c10_dry_run_pure (m : List (L × L)) (content : L) :
    (automatorApplyToFile m content true).1 = content ∧
      (automatorApplyToFile m content true).2 =
        (automatorApplyToFile m content false).2 := by
  by_cases h : 0 < (automatorRewrite m content).2 <;>
    simp [automatorApplyToFile, h]

/-- **C3** — counterexample: the catalog-update step does not repair a
key-set divergence that predates the run.  With `stale` present in the
English catalog, absent from the Russian one, and an empty suggestion
set, the update leaves the English catalog with `stale` and the Russian
one still without it. -/
theorem c3_stale_key_not_synchronized :
    stateHasKey (add_keys_to_arb_file
        (ArbFileState.wellFormed [(localeMarkerKey, ArbVal.text "en".toList),
          ("stale".toList, ArbVal.text "Old".toList)])
        [] "en".toList) "stale".toList = true ∧
      stateHasKey (add_keys_to_arb_file
        (ArbFileState.wellFormed [(localeMarkerKey, ArbVal.text ruLocale)])
        [] ruLocale) "stale".toList = false := by
  constructor <;> decide

/-- **C3** (amended) — every key of the suggestion set applied in the
run (other than the reserved locale-marker key) is present in both the
English and the Russian catalog after the catalog-update step, provided
each catalog file is absent or well-formed; a malformed catalog file is
skipped wholesale — the exception is swallowed and nothing is added or
written — and pre-existing divergence for keys outside the suggestion
set is not repaired. -/
theorem c3_added_keys_in_both_catalogs
    (enState ruState : ArbFileState) (suggs : List Suggestion) (k : L)
    (hen : enState ≠ ArbFileState.malformed)
    (hru : ruState ≠ ArbFileState.malformed)
    (hk : ∃ s ∈ suggs, s.key = k) (hkm : k ≠ localeMarkerKey) :
    stateHasKey (add_keys_to_arb_file enState suggs "en".toList) k = true ∧
      stateHasKey (add_keys_to_arb_file ruState suggs ruLocale) k = true ∧
      ∀ (suggs2 : List Suggestion) (locale : L),
        add_keys_to_arb_file ArbFileState.malformed suggs2 locale =
          ArbFileState.malformed :=
  ⟨stateHasKey_add_keys hen hk hkm, stateHasKey_add_keys hru hk hkm,
    fun _ _ => rfl⟩

/-- Witness for the amended C3 theorem at a concrete suggestion set
applied to two initially absent catalogs. -/
theorem c3_added_keys_in_both_catalogs_witness :
    stateHasKey (add_keys_to_arb_file ArbFileState.absent
        [⟨"greet".toList, "Hello".toList, [], "label".toList, 1⟩]
        "en".toList) "greet".toList = true ∧
      stateHasKey (add_keys_to_arb_file ArbFileState.absent
        [⟨"greet".toList, "Hello".toList, [], "label".toList, 1⟩]
        ruLocale) "greet".toList = true :=
  ⟨(c3_added_keys_in_both_catalogs ArbFileState.absent ArbFileState.absent
      [⟨"greet".toList, "Hello".toList, [], "label".toList, 1⟩] "greet".toList
      (by decide) (by decide) (by decide) (by decide)).1,
   (c3_added_keys_in_both_catalogs ArbFileState.absent ArbFileState.absent
      [⟨"greet".toList, "Hello".toList, [], "label".toList, 1⟩] "greet".toList
      (by decide) (by decide) (by decide) (by decide)).2.1⟩

/-- **C4** — confidence filter correctness: the filtered list contains
exactly the input suggestions that pass all five rules (confidence at
least the threshold, no `$` template marker in the value, trimmed length
at least 3 or a button/label widget type, not all-uppercase without a
space, key not already in the reference catalog), and every retained
suggestion has confidence at least the threshold — so no suggestion
below the threshold is ever handed to the rewrite step. -/
theorem c4_filter_exact (existingEn : List L) (minConf : ℚ)
    (suggs : List Suggestion) :
    (∀ s, s ∈ filter_high_confidence_suggestions existingEn minConf suggs ↔
        s ∈ suggs ∧ specKeep existingEn minConf s) ∧
    (∀ s ∈ filter_high_confidence_suggestions existingEn minConf suggs,
        minConf ≤ s.confidence) := by
  constructor
  · intro s
    rw [filter_high_confidence_suggestions, List.mem_filter,
      keepSuggestion_iff]
  · intro s hs
    have h := (List.mem_filter.mp hs).2
    rw [keepSuggestion_iff] at h
    exact h.1

/-- Witness for C4 at a concrete suggestion list and threshold. -/
theorem c4_filter_exact_witness :
    (0 : ℚ) ≤
      (⟨"greet".toList, "Hello".toList, [], "label".toList, 1⟩ :
        Suggestion).confidence :=
  (c4_filter_exact [] 0
      [⟨"greet".toList, "Hello".toList, [], "label".toList, 1⟩]).2
    ⟨"greet".toList, "Hello".toList, [], "label".toList, 1⟩ (by decide)

/-- **C5** — counterexample: a malformed catalog document does not fail
with a `CatalogReadError`-style abort.  `json.load` raises inside the
`try`, the `except Exception` handler logs and returns the empty key
set, and the run proceeds. -/
theorem c5_malformed_catalog_swallowed :
    load_existing_arb_keys ArbFileState.malformed = LoadOutcome.ok [] ∧
      load_existing_arb_keys ArbFileState.malformed ≠ LoadOutcome.catalogError := by
  exact ⟨rfl, by decide⟩

/-- **C5** (amended) — a malformed catalog behaves exactly like an
absent one: the loader returns the empty key set and never an error
outcome; the locale marker appears only in the base document that the
catalog-update step builds for an absent file; a well-formed document
yields its non-metadata keys. -/
theorem c5_malformed_behaves_as_absent :
    load_existing_arb_keys ArbFileState.malformed =
        load_existing_arb_keys ArbFileState.absent ∧
      load_existing_arb_keys ArbFileState.absent = LoadOutcome.ok [] ∧
      arbBase none ruLocale = [(localeMarkerKey, ArbVal.text ruLocale)] ∧
      ∀ doc, load_existing_arb_keys (ArbFileState.wellFormed doc) =
        LoadOutcome.ok (arbEntryKeys doc) :=
  ⟨rfl, rfl, rfl, fun _ => rfl⟩

/-- **C6** — counterexample: for a source unit with no import lines, the
inserted statement lands directly AFTER the first non-comment line
(at index `first+1`), not at the top before it as the claim states. -/
theorem c6_import_after_first_code_line :
    (fix_missing_imports "lib/widgets/foo.dart".toList
        (joinLines ["// header".toList,
          "Widget w(c) => Text(AppLocalizations.of(context)!.x);".toList])).1 =
      joinLines ["// header".toList,
        "Widget w(c) => Text(AppLocalizations.of(context)!.x);".toList,
        importStatement "lib/widgets/foo.dart".toList] ∧
    (fix_missing_imports "lib/widgets/foo.dart".toList
        (joinLines ["// header".toList,
          "Widget w(c) => Text(AppLocalizations.of(context)!.x);".toList])).1 ≠
      joinLines ["// header".toList,
        importStatement "lib/widgets/foo.dart".toList,
        "Widget w(c) => Text(AppLocalizations.of(context)!.x);".toList] := by
  constructor <;> decide

/-- **C6** (amended) — insertion of the missing import: (1) when the unit
has existing import lines, the new statement is inserted directly
after the last import line; (2) when it has none, it is inserted directly
AFTER the first non-blank, non-comment line; (3) for a unit below the
source root the relative path is `'../'` repeated once per directory
level below `lib/`, then `l10n/app_localizations.dart`. -/
theorem c6_import_insertion (path : L) :
    (∀ (A : List L) (imp : L) (B : List L),
      (∀ l ∈ A ++ imp :: B, ∀ c ∈ l, c ≠ nl) →
      isImportLine imp = true → (∀ l ∈ B, isImportLine l = false) →
      occurs appLocMarker (joinLines (A ++ imp :: B)) = true →
      hasImportVariant (joinLines (A ++ imp :: B)) = false →
      (fix_missing_imports path (joinLines (A ++ imp :: B))).1 =
        joinLines (A ++ imp :: importStatement path :: B)) ∧
    (∀ (C : List L) (first : L) (D : List L),
      (∀ l ∈ C ++ first :: D, ∀ c ∈ l, c ≠ nl) →
      (∀ l ∈ C ++ first :: D, isImportLine l = false) →
      (∀ l ∈ C, isSkippableTop l = true) → isSkippableTop first = false →
      occurs appLocMarker (joinLines (C ++ first :: D)) = true →
      hasImportVariant (joinLines (C ++ first :: D)) = false →
      (fix_missing_imports path (joinLines (C ++ first :: D))).1 =
        joinLines (C ++ first :: importStatement path :: D)) ∧
    (∀ rest : L, bs ∉ rest →
      calculate_import_path ("lib/".toList ++ rest) =
        dots (rest.count '/') ++ l10nSuffix) := by
  refine ⟨?_, ?_, ?_⟩
  · intro A imp B hnl himp hB hmk hvar
    have hne : A ++ imp :: B ≠ [] := by simp
    have hidx : (match lastImportIdxAux 0 none (A ++ imp :: B) with
                 | some i => i
                 | none => (firstCodeIdxAux 0 (A ++ imp :: B)).getD 0) = A.length := by
      rw [lastImportIdxAux_last A imp B 0 none himp hB]
      simp
    rw [fix_missing_imports_insert path _ hne hnl hmk hvar A.length hidx,
      insertAt_after]
  · intro C first D hnl hnoimp hC hf hmk hvar
    have hne : C ++ first :: D ≠ [] := by simp
    have hidx : (match lastImportIdxAux 0 none (C ++ first :: D) with
                 | some i => i
                 | none => (firstCodeIdxAux 0 (C ++ first :: D)).getD 0) = C.length := by
      rw [lastImportIdxAux_all_not _ _ _ hnoimp]
      rw [firstCodeIdxAux_skip C first D 0 hC hf]
      simp
    rw [fix_missing_imports_insert path _ hne hnl hmk hvar C.length hidx,
      insertAt_after]
  · intro rest hbs
    have h1 : ("lib/".toList).map (fun c => if c = bs then '/' else c) =
        "lib/".toList := by decide
    have h2 : rest.map (fun c => if c = bs then '/' else c) = rest := by
      refine map_id_of_eq ?_
      intro c hc
      rw [if_neg]
      intro h
      subst h
      exact hbs hc
    have hmap : ("lib/".toList ++ rest).map (fun c => if c = bs then '/' else c) =
        "lib/".toList ++ rest := by
      rw [List.map_append, h1, h2]
    have hfo : firstOccIdx ("lib/".toList) ("lib/".toList ++ rest) = some 0 := by
      have hcons : "lib/".toList ++ rest = 'l' :: ("ib/".toList ++ rest) := rfl
      have hp : ("lib/".toList).isPrefixOf ('l' :: ("ib/".toList ++ rest)) = true := by
        rw [List.isPrefixOf_iff_prefix, ← hcons]
        exact List.prefix_append _ _
      rw [hcons]
      show (if ("lib/".toList).isPrefixOf ('l' :: ("ib/".toList ++ rest)) then some 0
            else (firstOccIdx ("lib/".toList) ("ib/".toList ++ rest)).map (· + 1)) =
        some 0
      rw [hp]
      simp
    simp only [calculate_import_path]
    rw [hmap, hfo]
    rfl

/-- Witness for the amended C6 theorem at a concrete unit with one
existing import. -/
theorem c6_import_insertion_witness :
    (fix_missing_imports "lib/widgets/foo.dart".toList
        (joinLines [("import ".toList ++ [sq] ++ "a.dart".toList ++ [sq] ++ [';']),
          "Widget w(c) => Text(AppLocalizations.of(context)!.y);".toList])).1 =
      joinLines [("import ".toList ++ [sq] ++ "a.dart".toList ++ [sq] ++ [';']),
        importStatement "lib/widgets/foo.dart".toList,
        "Widget w(c) => Text(AppLocalizations.of(context)!.y);".toList] :=
  (c6_import_insertion "lib/widgets/foo.dart".toList).1 []
    ("import ".toList ++ [sq] ++ "a.dart".toList ++ [sq] ++ [';'])
    ["Widget w(c) => Text(AppLocalizations.of(context)!.y);".toList]
    (by decide) (by decide) (by decide) (by decide) (by decide)

/-- **C7** — counterexample: the suggestion applier does not preserve the
quote style of the original literal.  Rewriting `Text("Hello")` yields a
single-quoted fallback `... ?? 'Hello'`, not the double-quoted fallback
the claim requires. -/
theorem c7_double_quote_fallback_mismatch :
    (applySuggFile ("Text(".toList ++ quotePat dq "Hello".toList ++ ")".toList)
        [("hello".toList, "Hello".toList)]).1 =
      "Text(".toList ++ suggReplacement "hello".toList "Hello".toList ++
        ")".toList ∧
    (applySuggFile ("Text(".toList ++ quotePat dq "Hello".toList ++ ")".toList)
        [("hello".toList, "Hello".toList)]).1 ≠
      "Text(".toList ++ lookupRepl "hello".toList dq "Hello".toList ++
        ")".toList := by
  constructor <;> decide

/-- **C7** (amended) — quote handling at a plain single-occurrence site:
the automator's rewriter replaces the literal with a lookup whose
fallback keeps the original quote character (both quote styles), while
the suggestion applier always writes a single-quoted fallback, even for a
double-quoted original. -/
theorem c7_quote_handling :
    (∀ (q : Char) (t k pre suf : L), (q = sq ∨ q = dq) →
      (∀ c ∈ pre, c ≠ nl) → (∀ c ∈ t, c ≠ nl) → (∀ c ∈ k, c ≠ nl) →
      (∀ c ∈ suf, c ≠ nl) →
      occurs appLocMarker (pre ++ quotePat q t ++ suf) = false →
      occurs (quotePat q t) ((pre ++ quotePat q t).dropLast) = false →
      occurs (quotePat q t) suf = false →
      (q = dq → occurs (quotePat sq t) (pre ++ quotePat dq t ++ suf) = false) →
      (automatorRewrite [(t, k)] (pre ++ quotePat q t ++ suf)).1 =
        pre ++ lookupRepl k q t ++ suf) ∧
    (∀ (t k pre suf : L),
      (∀ c ∈ t, reSpecial c = false) →
      occurs (quotePat sq t) (pre ++ quotePat dq t ++ suf) = false →
      occurs (quotePat dq t) ((pre ++ quotePat dq t).dropLast) = false →
      occurs (quotePat dq t) suf = false →
      (applySuggFile (pre ++ quotePat dq t ++ suf) [(k, t)]).1 =
        pre ++ suggReplacement k t ++ suf) := by
  constructor
  · intro q t k pre suf hqor hpre ht hk hsuf hmk hdup hns hother
    have hqnl : q ≠ nl := by rcases hqor with rfl | rfl <;> decide
    have hformula : (automatorRewrite [(t, k)] (pre ++ quotePat q t ++ suf)).1 =
        (applyPatternAuto (quotePat dq t) (lookupRepl k dq t)
          ((applyPatternAuto (quotePat sq t) (lookupRepl k sq t)
            (pre ++ quotePat q t ++ suf)).1)).1 := rfl
    rw [hformula]
    rcases hqor with rfl | rfl
    · rw [applyPatternAuto_single_site hqnl hpre ht hsuf hmk hdup hns]
      have hmk2 : occurs appLocMarker (pre ++ lookupRepl k sq t ++ suf) = true := by
        rw [occurs_iff_isInfix]
        exact ((List.prefix_append appLocMarker _).isInfix).trans
          (List.infix_append pre (lookupRepl k sq t) suf)
      have hnl2 : ∀ c ∈ pre ++ lookupRepl k sq t ++ suf, c ≠ nl := by
        intro c hc
        rcases List.mem_append.mp hc with hc | hc
        · rcases List.mem_append.mp hc with hc | hc
          · exact hpre c hc
          · exact lookupRepl_no_nl (by decide) hk ht c hc
        · exact hsuf c hc
      exact applyPatternAuto_marker_noop hnl2 hmk2
    · rw [applyPatternAuto_no_occ (hother rfl)]
      exact applyPatternAuto_single_site hqnl hpre ht hsuf hmk hdup hns
  · intro t k pre suf hspec h1 hdup hns
    have hp1 : reEscape (quotePat sq t) = quotePat sq t :=
      reEscape_id (quotePat_no_special (by decide) hspec)
    have hp2 : reEscape (quotePat dq t) = quotePat dq t :=
      reEscape_id (quotePat_no_special (by decide) hspec)
    have hocc2 : occurs (quotePat dq t) (pre ++ quotePat dq t ++ suf) = true :=
      occurs_mid pre (quotePat dq t) suf
    have hfind : findFirstPat (pre ++ quotePat dq t ++ suf) (suggPatterns t) =
        some (quotePat dq t) := by
      simp only [suggPatterns, findFirstPat, hp1, hp2, h1, hocc2,
        Bool.false_eq_true, if_false, if_true]
    have hct : occurs constTextPre (quotePat dq t) = false := by
      cases hq : occurs constTextPre (quotePat dq t) with
      | false => rfl
      | true =>
        exfalso
        have hsp : ' ' ∈ quotePat dq t := mem_of_occurs (by decide) hq
        simp only [quotePat, List.mem_cons, List.mem_append, List.mem_singleton,
          List.not_mem_nil, or_false] at hsp
        rcases hsp with h | h | h
        · exact absurd h (by decide)
        · exact absurd (hspec ' ' h) (by decide)
        · exact absurd h (by decide)
    have happ : applySuggOne (pre ++ quotePat dq t ++ suf) k t =
        ((pyReplace (pre ++ quotePat dq t ++ suf) (quotePat dq t)
          (suggReplacement k t)).1, true) := by
      unfold applySuggOne
      rw [hfind]
      simp only [hct, Bool.false_eq_true, if_false]
    show (applySuggOne (pre ++ quotePat dq t ++ suf) k t).1 = _
    rw [happ,
      pyReplace_fst_split (suggReplacement k t) (quotePat_ne_nil dq t) pre suf hdup,
      pyReplace_fst_of_not_occurs _ hns]

/-- Witness for the amended C7 theorem: a double-quoted `"Yes"` site
rewritten by both engines. -/
theorem c7_quote_handling_witness :
    (automatorRewrite [("Yes".toList, "yes".toList)]
        ("Text(".toList ++ quotePat dq "Yes".toList ++ ")".toList)).1 =
      "Text(".toList ++ lookupRepl "yes".toList dq "Yes".toList ++ ")".toList ∧
    (applySuggFile ("Text(".toList ++ quotePat dq "Yes".toList ++ ")".toList)
        [("yes".toList, "Yes".toList)]).1 =
      "Text(".toList ++ suggReplacement "yes".toList "Yes".toList ++ ")".toList :=
  ⟨c7_quote_handling.1 dq "Yes".toList "yes".toList "Text(".toList ")".toList
      (Or.inr rfl) (by decide) (by decide) (by decide) (by decide) (by decide)
      (by decide) (by decide) (by decide),
   c7_quote_handling.2 "Yes".toList "yes".toList "Text(".toList ")".toList
      (by decide) (by decide) (by decide) (by decide)⟩

/-- **C8** — the change cap: the capped suggestion list is exactly the
first `max_changes` entries of the filtered list in input order — a
prefix of the input of length at most `max_changes`. -/
theorem c8_max_changes_cap {α : Type} (suggs : List α) (maxChanges : Nat) :
    limitSuggestions suggs maxChanges = suggs.take maxChanges ∧
      (limitSuggestions suggs maxChanges).length ≤ maxChanges ∧
      limitSuggestions suggs maxChanges <+: suggs := by
  unfold limitSuggestions
  by_cases h : maxChanges < suggs.length
  · rw [if_pos h]
    refine ⟨rfl, ?_, List.take_prefix _ _⟩
    rw [List.length_take]
    omega
  · rw [if_neg h]
    have hle : suggs.length ≤ maxChanges := Nat.le_of_not_lt h
    exact ⟨(List.take_of_length_le hle).symm, hle, List.prefix_rfl⟩

end AutoLoc
